import Mathlib

/-!
Verification development for the QuackStore / CacheFS block cache.

The development shallowly embeds the components of the repository that the
checked claims are about:

* the metadata manager (`src/src/metadata_manager.cpp`, namespace `quackstore`):
  in-memory indexes `block_mapping`, `reverse_block_mapping`, `files_metadata`,
  the LRU structures, and their versioned serialization;
* the block manager (`src/unnamed/part_006`, namespace `cachefs`, the only
  `BlockManager` implementation in the source snapshot): block allocation, the
  free list and its on-disk chained serialization, and the file header;
* the chained metadata writer (`src/src/metadata_writer.cpp`) and the
  chained metadata reader (`src/src/extension_state.cpp`, second document:
  `MetadataReader::ReadData` / `GetNextBlockId` / `ReadBlock`);
* the cache coordinator (`src/src/cache.cpp`): `StoreBlock`, `RetrieveBlock`,
  `Evict`, `SetMaxCacheSize`, `StoreFileSize`, `StoreFileLastModified`,
  `Open`, `Flush`, and the dirty flag;
* the freshness check of the caching file handle constructor
  (`src/src/cache_file_system.cpp`).

Modelling conventions:

* C++ `std::string` paths are byte lists (`List Nat`);
* `std::map` is an association list kept in key-sorted order (insertion is
  ordered insertion), `std::unordered_map` is an association list with
  replace-or-append upsert, `std::set<block_id_t>` is a sorted `List Int`;
* machine integers are `Nat` / `Int`; writers emit little-endian bytes with
  the reductions modulo `2^w` made explicit in the encoders;
* functions that can throw in C++ return `Option`, `none` standing for an
  exception escaping the function;
* `duckdb::Checksum` is external to the repository and is passed as an
  abstract function argument `chk`;
* loops whose termination is not structural (the eviction `while` loop, chain
  walks, the chunked writer loop) take an explicit fuel argument; call sites
  supply fuel that is sufficient on every state the source can reach, and the
  behaviour on fuel exhaustion models divergence of the corresponding C++
  loop (which only happens on states the source cannot reach).
-/

namespace QuackStore

/-- A source-file path: the byte string of a C++ `std::string`. -/
abbrev Path := List Nat

/-- `MetadataManager::BlockKey`: a (file path, block index) pair. -/
abbrev BlockKey := Path × Int

/-- `BlockManager::INVALID_BLOCK_ID = -1`. -/
def INVALID_BLOCK_ID : Int := -1

/-! ## Association-list helpers -/

/-- Lookup in an association list (first entry with the given key). -/
def alLookup [DecidableEq α] : List (α × β) → α → Option β
  | [], _ => none
  | (k', v) :: rest, k => if k = k' then some v else alLookup rest k

/-- Upsert for an unordered map (`std::unordered_map`): replace the first
entry with the key in place, otherwise append at the end. -/
def alInsert [DecidableEq α] (k : α) (v : β) : List (α × β) → List (α × β)
  | [] => [(k, v)]
  | (k', v') :: rest =>
    if k = k' then (k, v) :: rest else (k', v') :: alInsert k v rest

/-- Erase the first entry with the given key (`map::erase`). -/
def alErase [DecidableEq α] (k : α) : List (α × β) → List (α × β)
  | [] => []
  | (k', v') :: rest => if k = k' then rest else (k', v') :: alErase k rest

/-- Ordered insertion for a `std::map` kept as a key-sorted association list:
insert before the first strictly larger key, replacing an equal key. -/
def omInsert [DecidableEq α] (lt : α → α → Bool) (k : α) (v : β) :
    List (α × β) → List (α × β)
  | [] => [(k, v)]
  | (k', v') :: rest =>
    if lt k k' then (k, v) :: (k', v') :: rest
    else if k = k' then (k, v) :: rest
    else (k', v') :: omInsert lt k v rest

/-- `std::map::operator[]`-style upsert: update an existing entry in place,
otherwise insert at the sorted position. -/
def omUpsert [DecidableEq α] (lt : α → α → Bool) (k : α) (v : β)
    (l : List (α × β)) : List (α × β) :=
  match alLookup l k with
  | some _ => alInsert k v l
  | none => omInsert lt k v l

/-- Strict comparison of `block_id_t` keys (`std::map<block_id_t, ...>`). -/
def intLt (a b : Int) : Bool := a < b

/-- Lexicographic byte comparison of paths (`std::string operator<`). -/
def pathLt : Path → Path → Bool
  | [], [] => false
  | [], _ :: _ => true
  | _ :: _, [] => false
  | a :: as, b :: bs => if a < b then true else if b < a then false else pathLt as bs

/-- Ordered duplicate-free insertion into a sorted `std::set<block_id_t>`. -/
def fsInsert (x : Int) : List Int → List Int
  | [] => [x]
  | y :: rest =>
    if x < y then x :: y :: rest
    else if x = y then y :: rest
    else y :: fsInsert x rest

/-! ## Little-endian byte encoding -/

/-- `w` little-endian bytes of `n` (so the value recorded is `n % 256^w`). -/
def natLE : Nat → Nat → List Nat
  | 0, _ => []
  | w + 1, n => (n % 256) :: natLE w (n / 256)

/-- Decode a little-endian byte list. -/
def decLE : List Nat → Nat
  | [] => 0
  | b :: rest => b + 256 * decLE rest

/-- The 8 little-endian bytes of a `uint64_t`. -/
def u64LE (n : Nat) : List Nat := natLE 8 n

/-- The 4 little-endian bytes of a `uint32_t`. -/
def u32LE (n : Nat) : List Nat := natLE 4 n

/-- The 8 little-endian bytes of an `int64_t` (two's complement). -/
def i64LE (i : Int) : List Nat := natLE 8 (i % (2 ^ 64)).toNat

/-- Reinterpret a `uint64_t` value as an `int64_t` (two's complement). -/
def toI64 (n : Nat) : Int :=
  if n < 2 ^ 63 then (n : Int) else (n : Int) - 2 ^ 64

/-! ## Byte-stream readers (duckdb `ReadStream` over a byte list; reading past
the end of a `MemoryStream` throws, hence `none`). -/

/-- Read exactly `n` bytes from the stream. -/
def rdBytes (n : Nat) (s : List Nat) : Option (List Nat × List Nat) :=
  if n ≤ s.length then some (s.take n, s.drop n) else none

/-- Read a `uint64_t`. -/
def rdU64 (s : List Nat) : Option (Nat × List Nat) :=
  (rdBytes 8 s).map fun p => (decLE p.1, p.2)

/-- Read a `uint32_t`. -/
def rdU32 (s : List Nat) : Option (Nat × List Nat) :=
  (rdBytes 4 s).map fun p => (decLE p.1, p.2)

/-- Read an `int64_t`. -/
def rdI64 (s : List Nat) : Option (Int × List Nat) :=
  (rdBytes 8 s).map fun p => (toI64 (decLE p.1), p.2)

/-! ## Data model -/

/-- `MetadataManager::FileMetadataBlockInfo`. -/
structure FileMetadataBlockInfo where
  block_index : Int
  block_id : Int
  checksum : Nat
  deriving DecidableEq, Repr

/-- `MetadataManager::FileMetadata`.  `last_modified_deprecated` models the
`__last_modified_deprecated` legacy `time_t` field; `last_modified` is the
`duckdb::timestamp_t` microsecond value, whose default (`timestamp_t::epoch()`,
value `0`) is the "unknown" sentinel. -/
structure FileMetadata where
  file_size : Nat := 0
  blocks : List (Int × FileMetadataBlockInfo) := []
  last_modified_deprecated : Int := 0
  last_modified : Int := 0
  deriving DecidableEq, Repr

/-- `duckdb::Timestamp::FromTimeT`: promote a legacy `time_t` (seconds) to a
microsecond timestamp.  duckdb checks this multiplication for `int64_t`
overflow; the model multiplies unchecked and the theorems that rely on the
promotion restrict the legacy value to the non-overflowing range. -/
def fromTimeT (t : Int) : Int := t * 1000000

/-- The in-memory state of `MetadataManager`.  `lru_map` holds the key set of
the C++ `unordered_map<block_id_t, list::iterator>`; its iterator values are
represented by membership of the id in `lru_list`. -/
structure MetadataManager where
  block_mapping : List (BlockKey × Int) := []
  reverse_block_mapping : List (Int × BlockKey) := []
  files_metadata : List (Path × FileMetadata) := []
  lru_list : List Int := []
  lru_map : List Int := []
  max_cache_size : Nat := 2 ^ 63 - 1
  deriving DecidableEq, Repr

/-- The in-memory state of `BlockManager` (from `src/unnamed/part_006`),
together with the contents of the backing file's blocks.  `blocks` maps a
block id to the bytes last stored at its offset; blocks never stored read as
zero bytes in the model (the source reads whatever the file holds there). -/
structure BlockManager where
  block_size : Nat
  max_block : Nat := 0
  meta_block_id : Int := INVALID_BLOCK_ID
  free_list_id : Int := INVALID_BLOCK_ID
  free_list : List Int := []
  blocks : List (Int × List Nat) := []
  deriving DecidableEq, Repr

/-- `BLOCK_CACHE_DATA_FILE_VERSION_NUMBER` from `src/unnamed/part_006` (the
anonymous-namespace constant used by `CreateNewDatabase` and `WriteHeader`). -/
def BLOCK_CACHE_DATA_FILE_VERSION_NUMBER : Nat := 2

/-- `BlockCacheDataFileHeader` (magic bytes omitted: they are a fixed
constant checked on load and carry no state). -/
structure BlockCacheDataFileHeader where
  version : Nat
  meta_block : Int
  free_list : Int
  block_count : Nat
  block_size : Nat
  deriving DecidableEq, Repr

/-- The in-memory state of `Cache` (`src/src/cache.cpp`). -/
structure Cache where
  block_size : Nat
  dirty : Nat := 0
  path : Path := []
  opened : Bool := false
  bm : BlockManager
  mm : MetadataManager := {}
  deriving DecidableEq, Repr

/-! ## MetadataManager operations (`src/src/metadata_manager.cpp`) -/

namespace MetadataManager

/-- `MetadataManager::GetBlockId`: the registered id or `INVALID_BLOCK_ID`. -/
def getBlockId (mm : MetadataManager) (p : Path) (i : Int) : Int :=
  match alLookup mm.block_mapping (p, i) with
  | some bid => bid
  | none => INVALID_BLOCK_ID

/-- `MetadataManager::RegisterBlock`: insert into both direction maps and
into the file's `blocks` (creating the file entry if needed). -/
def registerBlock (mm : MetadataManager) (p : Path) (i : Int) (bid : Int)
    (ck : Nat) : MetadataManager :=
  let key : BlockKey := (p, i)
  let fm := match alLookup mm.files_metadata p with
    | some fm => fm
    | none => {}
  let info : FileMetadataBlockInfo := ⟨i, bid, ck⟩
  { mm with
    reverse_block_mapping := alInsert bid key mm.reverse_block_mapping
    block_mapping := alInsert key bid mm.block_mapping
    files_metadata :=
      omUpsert pathLt p { fm with blocks := omUpsert intLt bid info fm.blocks }
        mm.files_metadata }

/-- The first half of `MetadataManager::UnregisterBlock`: remove the block
from the metadata and from both direction maps (dropping the file entry when
its `blocks` map becomes empty). -/
def unregisterMaps (mm : MetadataManager) (bid : Int) : MetadataManager :=
  match alLookup mm.reverse_block_mapping bid with
  | some key =>
    let files' :=
      match alLookup mm.files_metadata key.1 with
      | some fm =>
        let blocks' := alErase bid fm.blocks
        if blocks'.isEmpty then alErase key.1 mm.files_metadata
        else omUpsert pathLt key.1 { fm with blocks := blocks' } mm.files_metadata
      | none => mm.files_metadata
    { mm with
      files_metadata := files'
      block_mapping := alErase key mm.block_mapping
      reverse_block_mapping := alErase bid mm.reverse_block_mapping }
  | none => mm

/-- `MetadataManager::UnregisterBlock`: remove from all indexes; drop the file
entry when its `blocks` map becomes empty; remove from the LRU tracking. -/
def unregisterBlock (mm : MetadataManager) (bid : Int) : MetadataManager :=
  let mm1 := unregisterMaps mm bid
  if mm1.lru_map.contains bid then
    { mm1 with
      lru_map := mm1.lru_map.erase bid
      lru_list := mm1.lru_list.erase bid }
  else mm1

/-- `MetadataManager::SetFileSize` (upsert via `operator[]`). -/
def setFileSize (mm : MetadataManager) (p : Path) (sz : Nat) : MetadataManager :=
  let fm := match alLookup mm.files_metadata p with
    | some fm => fm
    | none => {}
  { mm with files_metadata := omUpsert pathLt p { fm with file_size := sz } mm.files_metadata }

/-- `MetadataManager::SetFileLastModified` (upsert via `operator[]`). -/
def setFileLastModified (mm : MetadataManager) (p : Path) (ts : Int) : MetadataManager :=
  let fm := match alLookup mm.files_metadata p with
    | some fm => fm
    | none => {}
  { mm with files_metadata := omUpsert pathLt p { fm with last_modified := ts } mm.files_metadata }

/-- `MetadataManager::GetFileMetadata` (copy out). -/
def getFileMetadata (mm : MetadataManager) (p : Path) : Option FileMetadata :=
  alLookup mm.files_metadata p

/-- `MetadataManager::UpdateLRUOrder`: move to front, inserting if absent. -/
def updateLRUOrder (mm : MetadataManager) (bid : Int) : MetadataManager :=
  let l := if mm.lru_map.contains bid then mm.lru_list.erase bid else mm.lru_list
  { mm with
    lru_list := bid :: l
    lru_map := bid :: mm.lru_map.erase bid }

/-- `MetadataManager::GetBlockInfo`; `none` models the `std::runtime_error`
thrown when the entry is missing. -/
def getBlockInfo (mm : MetadataManager) (p : Path) (bid : Int) :
    Option FileMetadataBlockInfo :=
  match alLookup mm.files_metadata p with
  | some fm => alLookup fm.blocks bid
  | none => none

/-- `MetadataManager::SetMaxCacheSize`. -/
def setMaxCacheSize (mm : MetadataManager) (n : Nat) : MetadataManager :=
  { mm with max_cache_size := n }

/-- `MetadataManager::Clear`. -/
def clear (mm : MetadataManager) : MetadataManager :=
  { mm with
    block_mapping := []
    reverse_block_mapping := []
    files_metadata := []
    lru_list := []
    lru_map := [] }

end MetadataManager

/-! ## BlockManager operations (`src/unnamed/part_006`) -/

namespace BlockManager

/-- `BlockManager::ValidateBlockId`: `INVALID`, negative, or `≥ max_block`
throw `InvalidInputException`. -/
def validateBlockId (bm : BlockManager) (bid : Int) : Bool :=
  !(bid == INVALID_BLOCK_ID) && !(bid < 0) && (bid < (bm.max_block : Int))

/-- `BlockManager::AllocBlock`: pop the smallest id from the free set, else
bump the watermark. Never returns `INVALID`. -/
def allocBlock (bm : BlockManager) : Int × BlockManager :=
  match bm.free_list with
  | m :: rest => (m, { bm with free_list := rest })
  | [] => ((bm.max_block : Int), { bm with max_block := bm.max_block + 1 })

/-- `BlockManager::MarkBlockAsFree`: validate, then insert into the free set
(double free is a silent no-op). -/
def markBlockAsFree (bm : BlockManager) (bid : Int) : Option BlockManager :=
  if validateBlockId bm bid then
    some { bm with free_list := fsInsert bid bm.free_list }
  else none

/-- `BlockManager::StoreBlock`: validate and write the block bytes. -/
def storeBlock (bm : BlockManager) (bid : Int) (data : List Nat) :
    Option BlockManager :=
  if validateBlockId bm bid then
    some { bm with blocks := alInsert bid data bm.blocks }
  else none

/-- Bytes currently at a block's offset (blocks never stored read as zeros). -/
def blockBytes (bm : BlockManager) (bid : Int) : List Nat :=
  match alLookup bm.blocks bid with
  | some data => data
  | none => List.replicate bm.block_size 0

/-- `BlockManager::RetrieveBlock`: validate and read `block_size` bytes. -/
def retrieveBlock (bm : BlockManager) (bid : Int) : Option (List Nat) :=
  if validateBlockId bm bid then some (blockBytes bm bid) else none

/-- The `next_block_id` stored in a block's first 8 bytes, as
`MetadataReader::GetNextBlockId` (`src/src/extension_state.cpp:66-71`)
reads it from a loaded block. -/
def nextBlockIdOf (bm : BlockManager) (bid : Int) : Int :=
  toI64 (decLE ((blockBytes bm bid).take 8))

/-- `BlockManager::MarkChainedBlocksAsFree` (`src/unnamed/part_006:188-200`):
walk the chain from `bid` through a `MetadataReader`, freeing every block
visited and counting them.  Each iteration is `MetadataReader::ReadBlock`
(`src/src/extension_state.cpp:73-83`): an `INVALID` id ends the walk
cleanly, and on any other invalid id the `BlockManager::RetrieveBlock`
inside it throws (`none`); then the next pointer is taken from the block's
first 8 bytes and the block is freed.  `fuel` bounds the walk; the source's
loop diverges on a cyclic chain, which no reachable file contains. -/
def markChainedBlocksAsFree : Nat → BlockManager → Int → Option (BlockManager × Nat)
  | 0, bm, _ => some (bm, 0)
  | fuel + 1, bm, bid =>
    if bid = INVALID_BLOCK_ID then some (bm, 0)
    else if validateBlockId bm bid then
      let next := nextBlockIdOf bm bid
      (markBlockAsFree bm bid).bind fun bm' =>
        (markChainedBlocksAsFree fuel bm' next).map fun r => (r.1, r.2 + 1)
    else none

/-- `BlockManager::WriteHeader`: the header rewritten on every flush. -/
def writeHeader (bm : BlockManager) : BlockCacheDataFileHeader :=
  { version := BLOCK_CACHE_DATA_FILE_VERSION_NUMBER
    meta_block := bm.meta_block_id
    free_list := bm.free_list_id
    block_count := bm.max_block
    block_size := bm.block_size }

/-- `BlockManager::CreateNewDatabase`: a fresh manager and the header it
writes.  The source leaves the header's `block_size` field uninitialized on
this path (it is only assigned in `WriteHeader`); the model writes `0` for
it, and no claim depends on that field of the creation-time header. -/
def createNewDatabase (bsz : Nat) : BlockManager × BlockCacheDataFileHeader :=
  let bm : BlockManager := { block_size := bsz }
  (bm,
   { version := BLOCK_CACHE_DATA_FILE_VERSION_NUMBER
     meta_block := bm.meta_block_id
     free_list := bm.free_list_id
     block_count := bm.max_block
     block_size := 0 })

end BlockManager

/-! ## MetadataWriter (`src/src/metadata_writer.cpp`): a chunked writer over a
chain of blocks, each block's first 8 bytes holding the next block id. -/

/-- The writer's in-memory state. -/
structure MetadataWriter where
  current_block_id : Int
  offset : Nat
  current_block_data : List Nat
  used_metadata_blocks : List Int
  deriving DecidableEq, Repr

namespace MetadataWriter

/-- Overwrite `dst[off .. off + src.length)` with `src`. -/
def listWrite (dst : List Nat) (off : Nat) (src : List Nat) : List Nat :=
  dst.take off ++ src ++ dst.drop (off + src.length)

/-- `MetadataWriter::SetNextBlockId`: store the id in the first 8 bytes. -/
def setNextBlockId (w : MetadataWriter) (bid : Int) : MetadataWriter :=
  { w with current_block_data := listWrite w.current_block_data 0 (i64LE bid) }

/-- The writer constructor: reject `INVALID`, fill the buffer with `0xFF`,
set the terminator, start the payload after the 8-byte next pointer. -/
def init (bm : BlockManager) (startId : Int) : Option MetadataWriter :=
  if startId = INVALID_BLOCK_ID then none
  else some (setNextBlockId
    { current_block_id := startId
      offset := 8
      current_block_data := List.replicate bm.block_size 255
      used_metadata_blocks := [startId] } INVALID_BLOCK_ID)

/-- `MetadataWriter::Flush`: store the current buffer into its block. -/
def flushW (w : MetadataWriter) (bm : BlockManager) : Option BlockManager :=
  bm.storeBlock w.current_block_id w.current_block_data

/-- `MetadataWriter::AllocateNewBlock`: allocate the next block, link and
flush the current one, then reset the buffer onto the new block. -/
def allocateNewBlock (w : MetadataWriter) (bm : BlockManager) :
    Option (MetadataWriter × BlockManager) :=
  let (next, bm1) := bm.allocBlock
  let w1 := setNextBlockId w next
  (flushW w1 bm1).map fun bm2 =>
    ({ current_block_id := next
       offset := 8
       current_block_data :=
         listWrite (List.replicate bm.block_size 255) 0 (i64LE INVALID_BLOCK_ID)
       used_metadata_blocks := w.used_metadata_blocks ++ [next] }, bm2)

/-- `MetadataWriter::WriteData`: the chunking loop.  `fuel` bounds the loop;
`2 * bytes.length + 2` suffices whenever `block_size > 8` (the constructor
enforces `block_size ≥ 16`). -/
def writeData : Nat → MetadataWriter → BlockManager → List Nat →
    Option (MetadataWriter × BlockManager)
  | 0, w, bm, _ => some (w, bm)
  | fuel + 1, w, bm, bytes =>
    if bytes.isEmpty then some (w, bm)
    else
      let space := bm.block_size - w.offset
      if space = 0 then
        (allocateNewBlock w bm).bind fun r => writeData fuel r.1 r.2 bytes
      else
        let chunk := min bytes.length space
        let w' := { w with
          current_block_data := listWrite w.current_block_data w.offset (bytes.take chunk)
          offset := w.offset + chunk }
        writeData fuel w' bm (bytes.drop chunk)

/-- `MetadataWriter`'s destructor: finalize the terminator and flush. -/
def finalize (w : MetadataWriter) (bm : BlockManager) : Option BlockManager :=
  flushW (setNextBlockId w INVALID_BLOCK_ID) bm

/-- Run the writer rooted at `startId` over a sequence of `WriteData` calls,
then destruct it. Returns the updated manager and the used block list. -/
def run (bm : BlockManager) (startId : Int) (items : List (List Nat)) :
    Option (BlockManager × List Int) :=
  (init bm startId).bind fun w0 =>
    (items.foldlM (fun (acc : MetadataWriter × BlockManager) bytes =>
        writeData (2 * bytes.length + 2) acc.1 acc.2 bytes) (w0, bm)).bind
      fun acc => (finalize acc.1 acc.2).map fun bm' => (bm', acc.1.used_metadata_blocks)

end MetadataWriter

/-! ## Free-list persistence (`BlockManager::SaveFreeList` / `LoadFreeList`) -/

namespace BlockManager

/-- The payload byte stream `MetadataReader::ReadData`
(`src/src/extension_state.cpp:40-60`) exposes for the chain starting at
`bid`: the post-header bytes of each block, following each block's 8-byte
next pointer.  `ReadBlock` ends the stream cleanly on `INVALID_BLOCK_ID`
and throws (`none`) on any other invalid id, because the
`BlockManager::RetrieveBlock` inside it validates the id.  A consumer
asking for more bytes than the ended stream holds leaves its destination
variable uninitialized in the source (`ReadData` breaks out of its loop);
the model's readers report `none` on such short streams instead — every
claim reads well-formed chains holding enough bytes.  `fuel` bounds the
walk. -/
def collectChainPayload : Nat → BlockManager → Int → Option (List Nat)
  | 0, _, _ => some []
  | fuel + 1, bm, bid =>
    if bid = INVALID_BLOCK_ID then some []
    else if validateBlockId bm bid then
      (collectChainPayload fuel bm (nextBlockIdOf bm bid)).map
        fun rest => (blockBytes bm bid).drop 8 ++ rest
    else none

/-- The ordered list of block ids a chain starting at `bid` occupies — the
ids `MetadataReader::ReadBlock` appends to `used_metadata_blocks`
(`src/src/extension_state.cpp:73-83`); `none` when the walk hits an
invalid non-`INVALID` id. -/
def chainBlocks : Nat → BlockManager → Int → Option (List Int)
  | 0, _, _ => some []
  | fuel + 1, bm, bid =>
    if bid = INVALID_BLOCK_ID then some []
    else if validateBlockId bm bid then
      (chainBlocks fuel bm (nextBlockIdOf bm bid)).map
        fun rest => bid :: rest
    else none

/-- Read `n` consecutive `int64_t` values from a byte stream. -/
def rdI64List : Nat → List Nat → Option (List Int × List Nat)
  | 0, s => some ([], s)
  | n + 1, s =>
    (rdI64 s).bind fun p => (rdI64List n p.2).map fun q => (p.1 :: q.1, q.2)

/-- `BlockManager::SaveFreeList`.  The source first frees the previously
persisted chain, clears `free_list_id`, and returns if the free set is empty.
Otherwise it allocates the first chain block, snapshots `num_blocks` from the
(already reduced) live set, and then iterates the live `std::set` writing its
elements while the writer's own allocations keep erasing the current minimum
of that set.  For `block_size ≥ 24` every element erased mid-iteration has
already been visited, so the ids written are exactly the listing of the set
as it stood after the first chain block was allocated; the model writes that
snapshot while threading the allocations through the shared manager state
(at `block_size = 16` the source commits iterator-invalidation UB, which the
model does not cover). -/
def saveFreeList (bm0 : BlockManager) : Option BlockManager :=
  (markChainedBlocksAsFree (bm0.max_block + 1) bm0 bm0.free_list_id).bind fun r =>
    let bm1 := { r.1 with free_list_id := INVALID_BLOCK_ID }
    if bm1.free_list.isEmpty then some bm1
    else
      let (b1, bm2') := bm1.allocBlock
      let bm2 := { bm2' with free_list_id := b1 }
      let count := bm2.free_list.length
      let items := u64LE count :: bm2.free_list.map i64LE
      (MetadataWriter.run bm2 b1 items).map fun r2 => r2.1

/-- `BlockManager::LoadFreeList`: walk the persisted chain through a
`MetadataReader` and rebuild the free set from `count` followed by `count`
ids. -/
def loadFreeList (bm : BlockManager) : Option BlockManager :=
  if bm.free_list_id = INVALID_BLOCK_ID then some bm
  else
    (collectChainPayload (bm.max_block + 1) bm bm.free_list_id).bind
      fun payload =>
        (rdU64 payload).bind fun p =>
          (rdI64List p.1 p.2).map fun q =>
            { bm with free_list := q.1.foldl (fun s i => fsInsert i s) [] }

/-- `BlockManager::Flush`: serialize the free list, then rewrite the header. -/
def flushBM (bm : BlockManager) : Option (BlockManager × BlockCacheDataFileHeader) :=
  (saveFreeList bm).map fun bm' => (bm', writeHeader bm')

/-- `BlockManager::GetMetaBlockID`: return the anchor block id, allocating
and preparing it first if there is none (the temporary `MetadataWriter`
constructed there is destructed immediately, writing the prepared block). -/
def getMetaBlockID (bm : BlockManager) : Option (Int × BlockManager) :=
  if bm.meta_block_id ≠ INVALID_BLOCK_ID then some (bm.meta_block_id, bm)
  else
    let (mid, bm1) := bm.allocBlock
    let bm2 := { bm1 with meta_block_id := mid }
    (MetadataWriter.run bm2 mid []).map fun r => (mid, r.1)

end BlockManager

/-! ## Metadata serialization (`MetadataManager::WriteMetadata` /
`ReadMetadata` and `FileMetadata::Write` / `ReadV1..V3`), as byte-stream
transformations. -/

/-- Concatenate a list of byte lists. -/
def concatAll (ls : List (List Nat)) : List Nat := ls.foldr (· ++ ·) []

namespace FileMetadata

/-- `FileMetadata::Write`: `u64 file_size`, `u32 n_blocks`, the block
entries, the legacy `time_t`, then the native `i64` timestamp. -/
def writeBytes (fm : FileMetadata) : List Nat :=
  u64LE fm.file_size ++ u32LE fm.blocks.length ++
    concatAll (fm.blocks.map fun e =>
      i64LE e.2.block_index ++ i64LE e.2.block_id ++ u64LE e.2.checksum) ++
    i64LE fm.last_modified_deprecated ++ i64LE fm.last_modified

/-- The layout of a generation-1 `FileMetadata` stream: the prefix of
`Write` up to the block entries (a v1 file holds exactly the fields
`ReadV1` consumes). -/
def writeV1Bytes (fm : FileMetadata) : List Nat :=
  u64LE fm.file_size ++ u32LE fm.blocks.length ++
    concatAll (fm.blocks.map fun e =>
      i64LE e.2.block_index ++ i64LE e.2.block_id ++ u64LE e.2.checksum)

/-- The layout of a generation-2 stream: the v1 fields followed by the
legacy `time_t`. -/
def writeV2Bytes (fm : FileMetadata) : List Nat :=
  writeV1Bytes fm ++ i64LE fm.last_modified_deprecated

/-- The block-entry loop of `FileMetadata::ReadV1`, rebuilding the `std::map`
keyed by `block_id`. -/
def readBlocksLoop : Nat → List Nat → List (Int × FileMetadataBlockInfo) →
    Option (List (Int × FileMetadataBlockInfo) × List Nat)
  | 0, s, acc => some (acc, s)
  | n + 1, s, acc =>
    (rdI64 s).bind fun p1 =>
      (rdI64 p1.2).bind fun p2 =>
        (rdU64 p2.2).bind fun p3 =>
          readBlocksLoop n p3.2
            (omUpsert intLt p2.1 ⟨p1.1, p2.1, p3.1⟩ acc)

/-- `FileMetadata::ReadV1`: the other fields keep their defaults. -/
def readV1 (s : List Nat) : Option (FileMetadata × List Nat) :=
  (rdU64 s).bind fun p1 =>
    (rdU32 p1.2).bind fun p2 =>
      (readBlocksLoop p2.1 p2.2 []).map fun p3 =>
        ({ file_size := p1.1, blocks := p3.1 }, p3.2)

/-- `FileMetadata::ReadV2`: additionally read the legacy `time_t` and, when
it is nonzero, promote it through `Timestamp::FromTimeT`. -/
def readV2 (s : List Nat) : Option (FileMetadata × List Nat) :=
  (readV1 s).bind fun p1 =>
    (rdI64 p1.2).map fun (p2 : Int × List Nat) =>
      ({ p1.1 with
          last_modified_deprecated := p2.1
          last_modified :=
            if p2.1 ≠ 0 then fromTimeT p2.1 else p1.1.last_modified }, p2.2)

/-- `FileMetadata::ReadV3`: `ReadV2`, then overwrite `last_modified` with the
native microsecond timestamp. -/
def readV3 (s : List Nat) : Option (FileMetadata × List Nat) :=
  (readV2 s).bind fun p1 =>
    (rdI64 p1.2).map fun p2 => ({ p1.1 with last_modified := p2.1 }, p2.2)

/-- `FileMetadata::Read`: dispatch on the header version; any other version
throws `IOException` (`none`). -/
def readBytes (version : Nat) (s : List Nat) : Option (FileMetadata × List Nat) :=
  match version with
  | 1 => readV1 s
  | 2 => readV2 s
  | 3 => readV3 s
  | _ => none

end FileMetadata

/-- The range constraints under which one serialized block entry survives
the byte round trip, together with the `std::map`-keying invariant that the
entry's key is its `block_id`. -/
def blockEntryOk (e : Int × FileMetadataBlockInfo) : Prop :=
  e.1 = e.2.block_id ∧
    -(2 ^ 63) ≤ e.2.block_index ∧ e.2.block_index < 2 ^ 63 ∧
    -(2 ^ 63) ≤ e.2.block_id ∧ e.2.block_id < 2 ^ 63 ∧
    e.2.checksum < 2 ^ 64

instance (e : Int × FileMetadataBlockInfo) : Decidable (blockEntryOk e) := by
  rw [blockEntryOk]
  infer_instance

namespace FileMetadata

/-- Well-formedness of a `FileMetadata` value as the C++ in-memory state
guarantees it: the `blocks` `std::map` is keyed by `block_id` in strictly
increasing order, and every scalar sits in its declared integer range. -/
def WF (fm : FileMetadata) : Prop :=
  (∀ e ∈ fm.blocks, blockEntryOk e) ∧
  (fm.blocks.map Prod.fst).Pairwise (· < ·) ∧
  fm.file_size < 2 ^ 64 ∧ fm.blocks.length < 2 ^ 32 ∧
  -(2 ^ 63) ≤ fm.last_modified_deprecated ∧
  fm.last_modified_deprecated < 2 ^ 63 ∧
  -(2 ^ 63) ≤ fm.last_modified ∧ fm.last_modified < 2 ^ 63

instance (fm : FileMetadata) : Decidable fm.WF := by
  rw [WF]
  infer_instance

end FileMetadata

namespace MetadataManager

/-- `MetadataManager::WriteMetadata`: `u64 n_files`; per file
`u32 path_len | path bytes | FileMetadata`; `u64 lru_len`; the LRU ids from
most recent to least recent.  The path length is truncated to `uint32_t` and
that many bytes are written. -/
def writeMetadata (mm : MetadataManager) : List Nat :=
  u64LE mm.files_metadata.length ++
    concatAll (mm.files_metadata.map fun e =>
      u32LE (e.1.length % 2 ^ 32) ++ e.1.take (e.1.length % 2 ^ 32) ++
        e.2.writeBytes) ++
    u64LE mm.lru_list.length ++ concatAll (mm.lru_list.map i64LE)

/-- The per-file loop of `MetadataManager::ReadMetadata`: read each path and
`FileMetadata`, store it, and register every block entry in both direction
maps. -/
def readFilesLoop (version : Nat) : Nat → List Nat → MetadataManager →
    Option (MetadataManager × List Nat)
  | 0, s, mm => some (mm, s)
  | n + 1, s, mm =>
    (rdU32 s).bind fun p1 =>
      (rdBytes p1.1 p1.2).bind fun p2 =>
        (FileMetadata.readBytes version p2.2).bind fun p3 =>
          let p := p2.1
          let fm := p3.1
          readFilesLoop version n p3.2
            { mm with
              files_metadata := omUpsert pathLt p fm mm.files_metadata
              block_mapping := fm.blocks.foldl
                (fun m e => alInsert (p, e.2.block_index) e.2.block_id m)
                mm.block_mapping
              reverse_block_mapping := fm.blocks.foldl
                (fun m e => alInsert e.2.block_id (p, e.2.block_index) m)
                mm.reverse_block_mapping }

/-- `MetadataManager::ReadMetadata`: clear the three index maps, read the
files, then rebuild the LRU list and map in stream order (`max_cache_size`
is not serialized and keeps its value). -/
def readMetadata (mm : MetadataManager) (version : Nat) (s : List Nat) :
    Option MetadataManager :=
  let mm0 := { mm with
    files_metadata := [], block_mapping := [], reverse_block_mapping := [] }
  (rdU64 s).bind fun p1 =>
    (readFilesLoop version p1.1 p1.2 mm0).bind fun p2 =>
      (rdU64 p2.2).bind fun p3 =>
        (BlockManager.rdI64List p3.1 p3.2).map fun p4 =>
          p4.1.foldl
            (fun m bid =>
              { m with
                lru_list := m.lru_list ++ [bid]
                lru_map :=
                  if m.lru_map.contains bid then m.lru_map
                  else m.lru_map ++ [bid] })
            { p2.1 with lru_list := [], lru_map := [] }

end MetadataManager

/-! ## Cache coordinator (`src/src/cache.cpp`) -/

namespace Cache

/-- `Cache::SetDirty`: a set increments the counter, a clear zeroes it. -/
def setDirty (c : Cache) (flag : Bool) : Cache :=
  if flag then { c with dirty := c.dirty + 1 } else { c with dirty := 0 }

/-- `Cache::IsDirty`. -/
def isDirty (c : Cache) : Bool := c.dirty ≠ 0

/-- The anonymous-namespace helper `NumBlocksFromSize` (`int64_t` ceiling
division; byte counts within `int64_t` range behave as this `Nat` model). -/
def numBlocksFromSize (bytes blockSize : Nat) : Nat :=
  (bytes + blockSize - 1) / blockSize

/-- `MetadataManager::EvictLRUBlockIfNeeded` with the coordinator's callback
that frees the evicted block in the block manager: pop the least-recent id
while over capacity.  `fuel` bounds the `while` loop; `lru_map.length`
suffices on every state whose LRU map and list agree, and on other states
the source's loop diverges (the body makes no progress when the list is
empty but the map is over capacity). -/
def evictLoop : Nat → MetadataManager → BlockManager →
    Option (MetadataManager × BlockManager)
  | 0, mm, bm => some (mm, bm)
  | fuel + 1, mm, bm =>
    if mm.lru_map.length > mm.max_cache_size then
      match mm.lru_list.getLast? with
      | some bid =>
        (bm.markBlockAsFree bid).bind fun bm' =>
          evictLoop fuel (mm.unregisterBlock bid) bm'
      | none => evictLoop fuel mm bm
    else some (mm, bm)

/-- The coordinator's `EvictLRUBlockIfNeeded` call with its block-freeing
callback. -/
def evictLRUBlockIfNeeded (mm : MetadataManager) (bm : BlockManager) :
    Option (MetadataManager × BlockManager) :=
  evictLoop mm.lru_map.length mm bm

/-- `Cache::StoreBlock`: compute the checksum over `data`; allocate and
register a block (then evict while over capacity) when `(path, index)` is
unknown; move the block to the LRU front; write the bytes; mark dirty.
`chk` is duckdb's `Checksum`. -/
def storeBlock (chk : List Nat → Nat) (c : Cache) (p : Path) (i : Int)
    (data : List Nat) : Option Cache :=
  let cksum := chk data
  let bid0 := c.mm.getBlockId p i
  let pre :=
    if bid0 = INVALID_BLOCK_ID then
      let (bid, bm1) := c.bm.allocBlock
      let mm1 := c.mm.registerBlock p i bid cksum
      (evictLRUBlockIfNeeded mm1 bm1).map fun r => (r.1, r.2, bid)
    else some (c.mm, c.bm, bid0)
  pre.bind fun r =>
    let mm2 := r.1.updateLRUOrder r.2.2
    (r.2.1.storeBlock r.2.2 data).map fun bm2 =>
      setDirty { c with mm := mm2, bm := bm2 } true

/-- `Cache::RetrieveBlock`: miss on an unknown `(path, index)`; otherwise
look up the block info, touch the LRU, read the bytes, and verify the
checksum — freeing and unregistering the block on a mismatch. -/
def retrieveBlock (chk : List Nat → Nat) (c : Cache) (p : Path) (i : Int) :
    Option (Cache × Bool) :=
  let bid := c.mm.getBlockId p i
  if bid = INVALID_BLOCK_ID then some (c, false)
  else
    (c.mm.getBlockInfo p bid).bind fun info =>
      let mm1 := c.mm.updateLRUOrder bid
      (c.bm.retrieveBlock bid).bind fun data =>
        if info.checksum ≠ chk data then
          (c.bm.markBlockAsFree bid).map fun bm1 =>
            (setDirty { c with mm := mm1.unregisterBlock bid, bm := bm1 } true,
              false)
        else some (setDirty { c with mm := mm1, bm := c.bm } true, true)

/-- `Cache::Evict`: release every block of the file's entry; missing path is
a no-op; `SetDirty(evicted)` is called with whether anything was evicted. -/
def evict (c : Cache) (p : Path) : Option Cache :=
  match c.mm.getFileMetadata p with
  | none => some c
  | some md =>
    (md.blocks.foldlM
        (fun (acc : MetadataManager × BlockManager) e =>
          (acc.2.markBlockAsFree e.2.block_id).map fun bm' =>
            (acc.1.unregisterBlock e.2.block_id, bm'))
        (c.mm, c.bm)).map fun r =>
      setDirty { c with mm := r.1, bm := r.2 } !md.blocks.isEmpty

/-- `Cache::SetMaxCacheSize`: convert bytes to blocks, set the limit, run
eviction, mark dirty. -/
def setMaxCacheSize (c : Cache) (bytes : Nat) : Option Cache :=
  let mm1 := c.mm.setMaxCacheSize (numBlocksFromSize bytes c.block_size)
  (evictLRUBlockIfNeeded mm1 c.bm).map fun r =>
    setDirty { c with mm := r.1, bm := r.2 } true

/-- `Cache::StoreFileSize`. -/
def storeFileSize (c : Cache) (p : Path) (sz : Nat) : Cache :=
  setDirty { c with mm := c.mm.setFileSize p sz } true

/-- `Cache::StoreFileLastModified`. -/
def storeFileLastModified (c : Cache) (p : Path) (ts : Int) : Cache :=
  setDirty { c with mm := c.mm.setFileLastModified p ts } true

/-- `Cache::RetrieveFileMetadata`. -/
def retrieveFileMetadata (c : Cache) (p : Path) : Option FileMetadata :=
  c.mm.getFileMetadata p

/-- `Cache::Open`.  Disk interaction is abstracted into parameters: after
`LoadOrCreateDatabase` the block manager is `bmLoaded`, and on
`LOADED_EXISTING` the metadata manager holds `mmLoaded` (the result of
`ReadMetadata` on the on-disk chain).  An empty path throws
`InvalidInputException`; an already-open cache is a no-op.  In all cases the
open transition ends with `SetDirty(true)`. -/
def openCache (c : Cache) (p : Path) (loadedExisting : Bool)
    (bmLoaded : BlockManager) (mmLoaded : MetadataManager) : Option Cache :=
  if c.opened then some c
  else if p.isEmpty then none
  else
    let mm' := if loadedExisting then mmLoaded else c.mm
    some (setDirty { c with bm := bmLoaded, mm := mm', path := p, opened := true } true)

/-- `Cache::Flush`: a no-op unless open and dirty (the `Bool` reports whether
the rewrite was performed); otherwise free the chained metadata blocks after
the anchor, serialize the metadata through a writer rooted at the anchor,
flush the block manager, and mark clean. -/
def flush (c : Cache) : Option (Cache × Bool) :=
  if !c.opened || c.dirty == 0 then some (c, false)
  else
    (c.bm.getMetaBlockID).bind fun r0 =>
      let deallocId := BlockManager.nextBlockIdOf r0.2 r0.1
      (BlockManager.markChainedBlocksAsFree (r0.2.max_block + 1) r0.2
          deallocId).bind fun r1 =>
        (MetadataWriter.run r1.1 r0.1 [c.mm.writeMetadata]).bind fun r2 =>
          (BlockManager.flushBM r2.1).map fun r3 =>
            ({ c with bm := r3.1, dirty := 0 }, true)

end Cache

/-! ## CacheFileHandle construction (`src/src/cache_file_system.cpp`) -/

namespace CacheFileHandle

/-- The cache-state transition of the `CacheFileHandle` constructor
(`cache_file_system.cpp:60-96`).  Disk interaction is abstracted into the
parameters `uLast` and `uSize`: the underlying file's last-modified time and
size (the source's lazy getters; by the time the `underlying_last_modified`
variable is read in the else-branch the getter has run, so the variable
equals `uLast` there).  When no metadata is cached the constructor stores
size then last-modified; for mutable data it evicts and refreshes the entry
when the freshness check reports a change. -/
def init (c : Cache) (p : Path) (dataMutable : Bool) (uLast : Int)
    (uSize : Nat) : Option Cache :=
  match c.retrieveFileMetadata p with
  | none =>
    some ((c.storeFileSize p uSize).storeFileLastModified p uLast)
  | some md =>
    if dataMutable then
      let evictEntry : Bool :=
        if md.last_modified ≠ uLast then true
        else if uLast = 0 then
          decide (md.file_size ≠ uSize ∨ uSize = 0)
        else false
      if evictEntry then
        (c.evict p).map fun c1 =>
          (c1.storeFileLastModified p uLast).storeFileSize p uSize
      else some c
    else some c

end CacheFileHandle

/-! ## Coordinator operation sequences -/

/-- A public coordinator operation (the state-mutating block and file-scalar
operations the claims quantify over). -/
inductive Op where
  | storeBlock (p : Path) (i : Int) (data : List Nat)
  | retrieveBlock (p : Path) (i : Int)
  | evict (p : Path)
  | setMaxCacheSize (bytes : Nat)
  | storeFileSize (p : Path) (sz : Nat)
  | storeFileLastModified (p : Path) (ts : Int)
  deriving DecidableEq, Repr

/-- Apply one operation; `none` models an exception escaping the call. -/
def applyOp (chk : List Nat → Nat) (c : Cache) : Op → Option Cache
  | Op.storeBlock p i data => Cache.storeBlock chk c p i data
  | Op.retrieveBlock p i => (Cache.retrieveBlock chk c p i).map Prod.fst
  | Op.evict p => Cache.evict c p
  | Op.setMaxCacheSize b => Cache.setMaxCacheSize c b
  | Op.storeFileSize p sz => some (Cache.storeFileSize c p sz)
  | Op.storeFileLastModified p ts => some (Cache.storeFileLastModified c p ts)

/-- Run a sequence of operations. -/
def runOps (chk : List Nat → Nat) (c : Cache) : List Op → Option Cache
  | [] => some c
  | op :: rest => (applyOp chk c op).bind fun c' => runOps chk c' rest

/-- An empty open cache over a fresh backing file, with the given capacity
in blocks. -/
def initCache (bsz maxBlocks : Nat) : Cache :=
  { block_size := bsz
    opened := true
    bm := { block_size := bsz }
    mm := { max_cache_size := maxBlocks } }

/-! ## Lemmas about the association-list map model -/

section MapLemmas

variable {α : Type} {β : Type} [DecidableEq α]

theorem alLookup_alInsert_self (l : List (α × β)) (k : α) (v : β) :
    alLookup (alInsert k v l) k = some v := by
  induction l with
  | nil => simp [alInsert, alLookup]
  | cons e rest ih =>
    by_cases h : k = e.1
    · simp [alInsert, h, alLookup]
    · simp [alInsert, h, alLookup, ih]

theorem alLookup_alInsert_ne (l : List (α × β)) (k k' : α) (v : β)
    (h : k' ≠ k) : alLookup (alInsert k v l) k' = alLookup l k' := by
  induction l with
  | nil => simp [alInsert, alLookup, h]
  | cons e rest ih =>
    by_cases hk : k = e.1
    · subst hk; simp [alInsert, alLookup, h, ih]
    · by_cases hk' : k' = e.1
      · simp [alInsert, alLookup, hk, hk']
      · simp [alInsert, alLookup, hk, hk', ih]

theorem alLookup_eq_none_iff (l : List (α × β)) (k : α) :
    alLookup l k = none ↔ k ∉ l.map Prod.fst := by
  induction l with
  | nil => simp [alLookup]
  | cons e rest ih =>
    by_cases h : k = e.1
    · simp [alLookup, h]
    · simp [alLookup, h, ih]

theorem mem_of_alLookup_eq_some {l : List (α × β)} {k : α} {v : β}
    (h : alLookup l k = some v) : (k, v) ∈ l := by
  induction l with
  | nil => simp [alLookup] at h
  | cons e rest ih =>
    by_cases hk : k = e.1
    · subst hk
      simp only [alLookup, eq_self_iff_true, if_true, Option.some.injEq] at h
      subst h
      exact List.mem_cons_self e rest
    · simp only [alLookup, if_neg hk] at h
      exact List.mem_cons_of_mem _ (ih h)

theorem alLookup_eq_some_of_mem {l : List (α × β)} {k : α} {v : β}
    (hnd : (l.map Prod.fst).Nodup) (h : (k, v) ∈ l) :
    alLookup l k = some v := by
  induction l with
  | nil => simp at h
  | cons e rest ih =>
    rw [List.map_cons, List.nodup_cons] at hnd
    rcases List.mem_cons.mp h with h1 | h1
    · rw [← h1]
      simp [alLookup]
    · have hk : k ≠ e.1 := by
        intro he
        apply hnd.1
        rw [← he]
        exact List.mem_map.mpr ⟨(k, v), h1, rfl⟩
      simp only [alLookup, if_neg hk]
      exact ih hnd.2 h1

theorem alErase_sublist (l : List (α × β)) (k : α) :
    (alErase k l).Sublist l := by
  induction l with
  | nil => exact List.Sublist.refl _
  | cons e rest ih =>
    by_cases h : k = e.1
    · simp only [alErase, if_pos h]
      exact List.sublist_cons_self e rest
    · simp only [alErase, if_neg h]
      exact List.Sublist.cons₂ e ih

theorem alErase_keys_nodup {l : List (α × β)} (k : α)
    (hnd : (l.map Prod.fst).Nodup) : ((alErase k l).map Prod.fst).Nodup :=
  List.Nodup.sublist (List.Sublist.map Prod.fst (alErase_sublist l k)) hnd

theorem alLookup_alErase_self {l : List (α × β)} (k : α)
    (hnd : (l.map Prod.fst).Nodup) : alLookup (alErase k l) k = none := by
  induction l with
  | nil => simp [alErase, alLookup]
  | cons e rest ih =>
    rw [List.map_cons, List.nodup_cons] at hnd
    by_cases h : k = e.1
    · subst h
      simp only [alErase, eq_self_iff_true, if_true]
      rw [alLookup_eq_none_iff]
      exact hnd.1
    · simp only [alErase, if_neg h, alLookup, if_neg h]
      exact ih hnd.2

theorem alLookup_alErase_ne (l : List (α × β)) (k k' : α)
    (h : k' ≠ k) : alLookup (alErase k l) k' = alLookup l k' := by
  induction l with
  | nil => simp [alErase]
  | cons e rest ih =>
    by_cases hk : k = e.1
    · subst hk
      simp only [alErase, eq_self_iff_true, if_true, alLookup, if_neg (fun he => h he)]
    · by_cases hk' : k' = e.1
      · simp only [alErase, if_neg hk, alLookup, if_pos hk']
      · simp only [alErase, if_neg hk, alLookup, if_neg hk']
        exact ih

theorem mem_keys_alInsert (l : List (α × β)) (k : α) (v : β) (b : α) :
    b ∈ (alInsert k v l).map Prod.fst ↔ b = k ∨ b ∈ l.map Prod.fst := by
  induction l with
  | nil => simp [alInsert, eq_comm]
  | cons e rest ih =>
    by_cases h : k = e.1
    · subst h
      simp only [alInsert, eq_self_iff_true, if_true, List.map_cons, List.mem_cons]
      tauto
    · simp only [alInsert, if_neg h, List.map_cons, List.mem_cons, ih]
      tauto

theorem alLookup_omInsert_self (lt : α → α → Bool) (l : List (α × β))
    (k : α) (v : β) : alLookup (omInsert lt k v l) k = some v := by
  induction l with
  | nil => simp [omInsert, alLookup]
  | cons e rest ih =>
    rw [omInsert]
    by_cases h1 : lt k e.1
    · rw [if_pos h1]
      simp [alLookup]
    · rw [if_neg h1]
      by_cases h2 : k = e.1
      · rw [if_pos h2]
        simp [alLookup]
      · rw [if_neg h2]
        simp only [alLookup, if_neg h2]
        exact ih

theorem alLookup_omInsert_ne (lt : α → α → Bool) (l : List (α × β))
    (k k' : α) (v : β) (h : k' ≠ k) :
    alLookup (omInsert lt k v l) k' = alLookup l k' := by
  induction l with
  | nil => simp [omInsert, alLookup, h]
  | cons e rest ih =>
    rw [omInsert]
    by_cases h1 : lt k e.1
    · rw [if_pos h1]
      simp only [alLookup, if_neg h]
    · rw [if_neg h1]
      by_cases h2 : k = e.1
      · rw [if_pos h2]
        subst h2
        simp only [alLookup, if_neg h]
      · rw [if_neg h2]
        by_cases h3 : k' = e.1
        · simp only [alLookup, if_pos h3]
        · simp only [alLookup, if_neg h3]
          exact ih

theorem alLookup_omUpsert_self (lt : α → α → Bool) (l : List (α × β))
    (k : α) (v : β) : alLookup (omUpsert lt k v l) k = some v := by
  rw [omUpsert]
  rcases alLookup l k with _ | w
  · exact alLookup_omInsert_self lt l k v
  · exact alLookup_alInsert_self l k v

theorem alLookup_omUpsert_ne (lt : α → α → Bool) (l : List (α × β))
    (k k' : α) (v : β) (h : k' ≠ k) :
    alLookup (omUpsert lt k v l) k' = alLookup l k' := by
  rw [omUpsert]
  rcases alLookup l k with _ | w
  · exact alLookup_omInsert_ne lt l k k' v h
  · exact alLookup_alInsert_ne l k k' v h

theorem alInsert_keys_nodup {l : List (α × β)} (k : α) (v : β)
    (hnd : (l.map Prod.fst).Nodup) : ((alInsert k v l).map Prod.fst).Nodup := by
  induction l with
  | nil => simp [alInsert]
  | cons e rest ih =>
    rw [List.map_cons, List.nodup_cons] at hnd
    by_cases h : k = e.1
    · subst h
      simp only [alInsert, eq_self_iff_true, if_true, List.map_cons, List.nodup_cons]
      exact ⟨hnd.1, hnd.2⟩
    · simp only [alInsert, if_neg h, List.map_cons, List.nodup_cons]
      refine ⟨fun hmem => ?_, ih hnd.2⟩
      rcases (mem_keys_alInsert rest k v e.1).mp hmem with h1 | h1
      · exact h h1.symm
      · exact hnd.1 h1

end MapLemmas

/-! ## Lemmas about the little-endian encoders -/

theorem length_natLE (w n : Nat) : (natLE w n).length = w := by
  induction w generalizing n with
  | zero => rfl
  | succ w ih => simp [natLE, ih]

theorem decLE_natLE (w n : Nat) : decLE (natLE w n) = n % 256 ^ w := by
  induction w generalizing n with
  | zero => simp [natLE, decLE, Nat.mod_one]
  | succ w ih =>
    rw [natLE, decLE, ih, pow_succ, Nat.mul_comm (256 ^ w) 256, Nat.mod_mul]

theorem rdBytes_append (a r : List Nat) :
    rdBytes a.length (a ++ r) = some (a, r) := by
  rw [rdBytes, if_pos (by simp)]
  simp

theorem rdU64_append (n : Nat) (r : List Nat) :
    rdU64 (u64LE n ++ r) = some (n % 2 ^ 64, r) := by
  have h : (8 : Nat) = (u64LE n).length := (length_natLE 8 n).symm
  rw [rdU64, h, rdBytes_append]
  have h2 : decLE (u64LE n) = n % 2 ^ 64 := by
    rw [u64LE, decLE_natLE]
    norm_num
  simp [h2]

theorem rdU64_append_of_lt {n : Nat} (h : n < 2 ^ 64) (r : List Nat) :
    rdU64 (u64LE n ++ r) = some (n, r) := by
  rw [rdU64_append, Nat.mod_eq_of_lt h]

theorem rdU32_append (n : Nat) (r : List Nat) :
    rdU32 (u32LE n ++ r) = some (n % 2 ^ 32, r) := by
  have h : (4 : Nat) = (u32LE n).length := (length_natLE 4 n).symm
  rw [rdU32, h, rdBytes_append]
  have h2 : decLE (u32LE n) = n % 2 ^ 32 := by
    rw [u32LE, decLE_natLE]
    norm_num
  simp [h2]

theorem rdU32_append_of_lt {n : Nat} (h : n < 2 ^ 32) (r : List Nat) :
    rdU32 (u32LE n ++ r) = some (n, r) := by
  rw [rdU32_append, Nat.mod_eq_of_lt h]

/-- An `int64_t` value in range survives the two's-complement round trip. -/
theorem toI64_i64LE {i : Int} (h1 : -(2 ^ 63) ≤ i) (h2 : i < 2 ^ 63) :
    toI64 ((i % 2 ^ 64).toNat % 2 ^ 64) = i := by
  have hpos : (0 : Int) < 2 ^ 64 := by norm_num
  have hnn : 0 ≤ i % 2 ^ 64 := Int.emod_nonneg i (by norm_num)
  have hlt : i % 2 ^ 64 < 2 ^ 64 := Int.emod_lt_of_pos i hpos
  have htn : ((i % 2 ^ 64).toNat : Int) = i % 2 ^ 64 := Int.toNat_of_nonneg hnn
  have hmod : (i % 2 ^ 64).toNat % 2 ^ 64 = (i % 2 ^ 64).toNat := by
    apply Nat.mod_eq_of_lt
    have := hlt
    omega
  rw [hmod, toI64]
  rcases le_or_lt 0 i with hi | hi
  · have hieq : i % 2 ^ 64 = i := Int.emod_eq_of_lt hi (by omega)
    rw [if_pos]
    · omega
    · omega
  · have hieq : i % 2 ^ 64 = i + 2 ^ 64 := by
      have : (i + 2 ^ 64) % 2 ^ 64 = i % 2 ^ 64 := by
        have h0 := Int.add_mul_emod_self_left (a := i) (b := 2 ^ 64) (c := 1)
        rw [mul_one] at h0
        exact h0
      rw [← this]
      exact Int.emod_eq_of_lt (by omega) (by omega)
    rw [if_neg]
    · omega
    · omega

theorem rdI64_append {i : Int} (h1 : -(2 ^ 63) ≤ i) (h2 : i < 2 ^ 63)
    (r : List Nat) : rdI64 (i64LE i ++ r) = some (i, r) := by
  have h : (8 : Nat) = (i64LE i).length := (length_natLE 8 _).symm
  rw [rdI64, h, rdBytes_append]
  have hd : decLE (i64LE i) = (i % 2 ^ 64).toNat % 2 ^ 64 := by
    rw [i64LE, decLE_natLE]
    norm_num
  simp only [Option.map_some', hd]
  rw [toI64_i64LE h1 h2]

/-! ## Lemmas about the free-set model -/

theorem mem_fsInsert (x y : Int) (l : List Int) :
    x ∈ fsInsert y l ↔ x = y ∨ x ∈ l := by
  induction l with
  | nil => simp [fsInsert]
  | cons z rest ih =>
    rw [fsInsert]
    by_cases h1 : y < z
    · rw [if_pos h1]
      simp only [List.mem_cons]
    · rw [if_neg h1]
      by_cases h2 : y = z
      · rw [if_pos h2]
        subst h2
        simp only [List.mem_cons]
        tauto
      · rw [if_neg h2]
        simp only [List.mem_cons, ih]
        tauto

theorem fsInsert_pairwise {l : List Int} (y : Int)
    (h : l.Pairwise (· < ·)) : (fsInsert y l).Pairwise (· < ·) := by
  induction l with
  | nil => simp [fsInsert]
  | cons z rest ih =>
    rw [List.pairwise_cons] at h
    rw [fsInsert]
    by_cases h1 : y < z
    · rw [if_pos h1]
      rw [List.pairwise_cons]
      refine ⟨fun b hb => ?_, List.pairwise_cons.mpr h⟩
      rcases List.mem_cons.mp hb with hb | hb
      · omega
      · exact lt_trans h1 (h.1 b hb)
    · rw [if_neg h1]
      by_cases h2 : y = z
      · rw [if_pos h2]
        exact List.pairwise_cons.mpr h
      · rw [if_neg h2]
        rw [List.pairwise_cons]
        refine ⟨fun b hb => ?_, ih h.2⟩
        rcases (mem_fsInsert b y rest).mp hb with hb | hb
        · omega
        · exact h.1 b hb

theorem mem_of_getLast?_own : ∀ (l : List Int) (b : Int),
    l.getLast? = some b → b ∈ l
  | [], b => by simp
  | [a], b => by
    intro h
    simp [List.getLast?] at h
    simp [h]
  | a :: c :: t, b => by
    rw [List.getLast?_cons_cons]
    intro h
    exact List.mem_cons_of_mem _ (mem_of_getLast?_own (c :: t) b h)

theorem intList_contains_iff (l : List Int) (a : Int) :
    l.contains a = true ↔ a ∈ l := by
  simp [List.contains]

/-! ## The coordinator state invariant

`MInv mm bm fr` collects the facts about the metadata manager and block
manager that the coordinator's operations preserve.  The parameter `fr`
carries a freshly allocated block id during the window inside
`Cache::StoreBlock` between `RegisterBlock` and `UpdateLRUOrder`, where the
new id is registered in the maps but not yet present in the LRU; at the
operation boundaries `fr = none`. -/

structure MInv (mm : MetadataManager) (bm : BlockManager) (fr : Option Int) :
    Prop where
  lruNodup : mm.lru_list.Nodup
  lruMapEq : mm.lru_map = mm.lru_list
  bmapKeysNodup : (mm.block_mapping.map Prod.fst).Nodup
  rmapKeysNodup : (mm.reverse_block_mapping.map Prod.fst).Nodup
  bmapLru : ∀ k bid, alLookup mm.block_mapping k = some bid →
    bid ∈ mm.lru_list ∨ some bid = fr
  lruValid : ∀ bid ∈ mm.lru_list, 0 ≤ bid ∧ bid < (bm.max_block : Int)
  lruFreeDisjoint : ∀ bid ∈ mm.lru_list, bid ∉ bm.free_list
  pairInv : ∀ k bid, alLookup mm.block_mapping k = some bid →
    alLookup mm.reverse_block_mapping bid = some k
  rmapInv : ∀ bid k, alLookup mm.reverse_block_mapping bid = some k →
    alLookup mm.block_mapping k = some bid
  flSorted : bm.free_list.Pairwise (· < ·)
  freeValid : ∀ bid ∈ bm.free_list, 0 ≤ bid ∧ bid < (bm.max_block : Int)
  frFresh : ∀ f, fr = some f →
    f ∉ mm.lru_list ∧ f ∉ bm.free_list ∧ 0 ≤ f ∧ f < (bm.max_block : Int)

/-- The coordinator invariant at operation boundaries, with the amended LRU
bound: the LRU can exceed the capacity by exactly the one block that
`Cache::StoreBlock` inserts after running eviction. -/
def Inv (c : Cache) : Prop :=
  MInv c.mm c.bm none ∧ c.mm.lru_map.length ≤ c.mm.max_cache_size + 1

/-! ### Projection lemmas -/

theorem unregisterMaps_lru_list (mm : MetadataManager) (bid : Int) :
    (mm.unregisterMaps bid).lru_list = mm.lru_list := by
  rw [MetadataManager.unregisterMaps]
  cases alLookup mm.reverse_block_mapping bid <;> rfl

theorem unregisterMaps_lru_map (mm : MetadataManager) (bid : Int) :
    (mm.unregisterMaps bid).lru_map = mm.lru_map := by
  rw [MetadataManager.unregisterMaps]
  cases alLookup mm.reverse_block_mapping bid <;> rfl

theorem unregisterMaps_max (mm : MetadataManager) (bid : Int) :
    (mm.unregisterMaps bid).max_cache_size = mm.max_cache_size := by
  rw [MetadataManager.unregisterMaps]
  cases alLookup mm.reverse_block_mapping bid <;> rfl

theorem unregisterMaps_rmap_none {mm : MetadataManager} {bid : Int}
    (h : alLookup mm.reverse_block_mapping bid = none) :
    mm.unregisterMaps bid = mm := by
  rw [MetadataManager.unregisterMaps, h]

theorem unregisterMaps_bmap_of_some {mm : MetadataManager} {bid : Int}
    {key : BlockKey} (h : alLookup mm.reverse_block_mapping bid = some key) :
    (mm.unregisterMaps bid).block_mapping = alErase key mm.block_mapping := by
  rw [MetadataManager.unregisterMaps, h]

theorem unregisterMaps_rmap_of_some {mm : MetadataManager} {bid : Int}
    {key : BlockKey} (h : alLookup mm.reverse_block_mapping bid = some key) :
    (mm.unregisterMaps bid).reverse_block_mapping =
      alErase bid mm.reverse_block_mapping := by
  rw [MetadataManager.unregisterMaps, h]

theorem unregisterBlock_max (mm : MetadataManager) (bid : Int) :
    (mm.unregisterBlock bid).max_cache_size = mm.max_cache_size := by
  rw [MetadataManager.unregisterBlock]
  by_cases h : (mm.unregisterMaps bid).lru_map.contains bid
  · rw [if_pos h]
    exact unregisterMaps_max mm bid
  · rw [if_neg h]
    exact unregisterMaps_max mm bid

theorem unregisterBlock_lru_list (mm : MetadataManager) (bid : Int) :
    (mm.unregisterBlock bid).lru_list =
      if mm.lru_map.contains bid then mm.lru_list.erase bid
      else mm.lru_list := by
  by_cases h : bid ∈ mm.lru_map
  · simp [MetadataManager.unregisterBlock, unregisterMaps_lru_map,
      unregisterMaps_lru_list, h]
  · simp [MetadataManager.unregisterBlock, unregisterMaps_lru_map,
      unregisterMaps_lru_list, h]

theorem unregisterBlock_lru_map (mm : MetadataManager) (bid : Int) :
    (mm.unregisterBlock bid).lru_map =
      if mm.lru_map.contains bid then mm.lru_map.erase bid
      else mm.lru_map := by
  by_cases h : bid ∈ mm.lru_map
  · simp [MetadataManager.unregisterBlock, unregisterMaps_lru_map, h]
  · simp [MetadataManager.unregisterBlock, unregisterMaps_lru_map, h]

theorem unregisterBlock_bmap (mm : MetadataManager) (bid : Int) :
    (mm.unregisterBlock bid).block_mapping =
      (mm.unregisterMaps bid).block_mapping := by
  rw [MetadataManager.unregisterBlock]
  by_cases h : (mm.unregisterMaps bid).lru_map.contains bid
  · rw [if_pos h]
  · rw [if_neg h]

theorem unregisterBlock_rmap (mm : MetadataManager) (bid : Int) :
    (mm.unregisterBlock bid).reverse_block_mapping =
      (mm.unregisterMaps bid).reverse_block_mapping := by
  rw [MetadataManager.unregisterBlock]
  by_cases h : (mm.unregisterMaps bid).lru_map.contains bid
  · rw [if_pos h]
  · rw [if_neg h]

theorem markBlockAsFree_eq_some {bm : BlockManager} {bid : Int}
    {bm' : BlockManager} (h : bm.markBlockAsFree bid = some bm') :
    bm' = { bm with free_list := fsInsert bid bm.free_list } ∧
      0 ≤ bid ∧ bid < (bm.max_block : Int) := by
  rw [BlockManager.markBlockAsFree] at h
  by_cases hv : bm.validateBlockId bid
  · rw [if_pos hv] at h
    refine ⟨(Option.some_inj.mp h).symm, ?_⟩
    simp only [BlockManager.validateBlockId, INVALID_BLOCK_ID, Bool.and_eq_true,
      Bool.not_eq_true', beq_eq_false_iff_ne, ne_eq, decide_eq_false_iff_not,
      decide_eq_true_eq] at hv
    omega
  · rw [if_neg hv] at h
    cases h

/-! ### The free-and-unregister step -/

/-- The combined effect of the coordinator freeing a block in the store and
unregistering it from the metadata (the body of the eviction loop, the
corruption recovery path of `RetrieveBlock`, and each iteration of
`Cache::Evict`) preserves the invariant. -/
theorem mInv_step {mm : MetadataManager} {bm : BlockManager} {fr : Option Int}
    {bid : Int} {bm' : BlockManager} (h : MInv mm bm fr)
    (hbm : bm.markBlockAsFree bid = some bm')
    (hfr : ∀ f, fr = some f → f ≠ bid) :
    MInv (mm.unregisterBlock bid) bm' fr := by
  obtain ⟨hbm', hge, hlt⟩ := markBlockAsFree_eq_some hbm
  subst hbm'
  have hLruSub : ((mm.unregisterBlock bid).lru_list).Sublist mm.lru_list := by
    rw [unregisterBlock_lru_list]
    by_cases hc : mm.lru_map.contains bid
    · rw [if_pos hc]
      exact List.erase_sublist bid mm.lru_list
    · rw [if_neg hc]
  have hLruMem : ∀ x ∈ (mm.unregisterBlock bid).lru_list,
      x ∈ mm.lru_list ∧ x ≠ bid := by
    intro x hx
    rw [unregisterBlock_lru_list] at hx
    by_cases hc : mm.lru_map.contains bid
    · rw [if_pos hc] at hx
      have := (List.Nodup.mem_erase_iff h.lruNodup).mp hx
      exact ⟨this.2, this.1⟩
    · rw [if_neg hc] at hx
      refine ⟨hx, fun he => ?_⟩
      subst he
      rw [h.lruMapEq] at hc
      exact hc ((intList_contains_iff _ _).mpr hx)
  have hMemBack : ∀ x, x ∈ mm.lru_list → x ≠ bid →
      x ∈ (mm.unregisterBlock bid).lru_list := by
    intro x hx hne
    rw [unregisterBlock_lru_list]
    by_cases hc : mm.lru_map.contains bid
    · rw [if_pos hc]
      exact (List.mem_erase_of_ne hne).mpr hx
    · rw [if_neg hc]
      exact hx
  have hPair : ∀ k bid', alLookup (mm.unregisterBlock bid).block_mapping k =
      some bid' → alLookup mm.block_mapping k = some bid' ∧ bid' ≠ bid := by
    intro k bid' hk
    rw [unregisterBlock_bmap] at hk
    rcases hrm : alLookup mm.reverse_block_mapping bid with _ | key
    · rw [unregisterMaps_rmap_none hrm] at hk
      refine ⟨hk, fun he => ?_⟩
      have h2 := h.pairInv k bid' hk
      rw [he, hrm] at h2
      cases h2
    · rw [unregisterMaps_bmap_of_some hrm] at hk
      by_cases hkey : k = key
      · subst hkey
        rw [alLookup_alErase_self k h.bmapKeysNodup] at hk
        cases hk
      · rw [alLookup_alErase_ne _ _ _ hkey] at hk
        refine ⟨hk, fun he => hkey ?_⟩
        have h2 := h.pairInv k bid' hk
        rw [he, hrm] at h2
        exact (Option.some_inj.mp h2).symm
  constructor
  case lruNodup =>
    exact List.Nodup.sublist hLruSub h.lruNodup
  case lruMapEq =>
    rw [unregisterBlock_lru_list, unregisterBlock_lru_map, h.lruMapEq]
  case bmapKeysNodup =>
    rw [unregisterBlock_bmap]
    rcases hrm : alLookup mm.reverse_block_mapping bid with _ | key
    · rw [unregisterMaps_rmap_none hrm]
      exact h.bmapKeysNodup
    · rw [unregisterMaps_bmap_of_some hrm]
      exact alErase_keys_nodup key h.bmapKeysNodup
  case rmapKeysNodup =>
    rw [unregisterBlock_rmap]
    rcases hrm : alLookup mm.reverse_block_mapping bid with _ | key
    · rw [unregisterMaps_rmap_none hrm]
      exact h.rmapKeysNodup
    · rw [unregisterMaps_rmap_of_some hrm]
      exact alErase_keys_nodup bid h.rmapKeysNodup
  case bmapLru =>
    intro k bid' hk
    obtain ⟨hk0, hne⟩ := hPair k bid' hk
    rcases h.bmapLru k bid' hk0 with hmem | hfr'
    · exact Or.inl (hMemBack bid' hmem hne)
    · exact Or.inr hfr'
  case lruValid =>
    intro x hx
    exact h.lruValid x (hLruMem x hx).1
  case lruFreeDisjoint =>
    intro x hx
    obtain ⟨hx0, hne⟩ := hLruMem x hx
    rw [mem_fsInsert]
    push_neg
    exact ⟨hne, h.lruFreeDisjoint x hx0⟩
  case pairInv =>
    intro k bid' hk
    obtain ⟨hk0, hne⟩ := hPair k bid' hk
    rw [unregisterBlock_rmap]
    rcases hrm : alLookup mm.reverse_block_mapping bid with _ | key
    · rw [unregisterMaps_rmap_none hrm]
      exact h.pairInv k bid' hk0
    · rw [unregisterMaps_rmap_of_some hrm, alLookup_alErase_ne _ _ _ hne]
      exact h.pairInv k bid' hk0
  case rmapInv =>
    intro bid' k' hk
    rw [unregisterBlock_rmap] at hk
    rw [unregisterBlock_bmap]
    rcases hrm : alLookup mm.reverse_block_mapping bid with _ | key
    · rw [unregisterMaps_rmap_none hrm] at hk
      rw [unregisterMaps_rmap_none hrm]
      exact h.rmapInv bid' k' hk
    · rw [unregisterMaps_rmap_of_some hrm] at hk
      rw [unregisterMaps_bmap_of_some hrm]
      by_cases hbid : bid' = bid
      · subst hbid
        rw [alLookup_alErase_self bid' h.rmapKeysNodup] at hk
        cases hk
      · rw [alLookup_alErase_ne _ _ _ hbid] at hk
        have hbl := h.rmapInv bid' k' hk
        have hkey : k' ≠ key := by
          intro he
          have hbk := h.rmapInv bid key hrm
          rw [he] at hbl
          rw [hbl] at hbk
          exact hbid (Option.some_inj.mp hbk)
        rw [alLookup_alErase_ne _ _ _ hkey]
        exact hbl
  case flSorted =>
    exact fsInsert_pairwise bid h.flSorted
  case freeValid =>
    intro x hx
    rcases (mem_fsInsert x bid bm.free_list).mp hx with he | hx
    · subst he
      exact ⟨hge, hlt⟩
    · exact h.freeValid x hx
  case frFresh =>
    intro f hf
    obtain ⟨h1, h2, h3, h4⟩ := h.frFresh f hf
    refine ⟨fun hmem => h1 (hLruMem f hmem).1, ?_, h3, h4⟩
    rw [mem_fsInsert]
    push_neg
    exact ⟨hfr f hf, h2⟩

/-! ### The eviction loop -/

theorem unregisterBlock_lru_length_of_mem {mm : MetadataManager} {bid : Int}
    (h : bid ∈ mm.lru_map) :
    (mm.unregisterBlock bid).lru_map.length = mm.lru_map.length - 1 := by
  rw [unregisterBlock_lru_map, if_pos ((intList_contains_iff _ _).mpr h)]
  exact List.length_erase_of_mem h

/-- The eviction loop preserves the invariant, keeps the capacity unchanged,
and — with fuel at least the LRU size — enforces the capacity bound. -/
theorem evictLoop_mInv : ∀ (fuel : Nat) {mm : MetadataManager}
    {bm : BlockManager} {fr : Option Int} {out : MetadataManager × BlockManager},
    MInv mm bm fr → Cache.evictLoop fuel mm bm = some out →
    MInv out.1 out.2 fr ∧ out.1.max_cache_size = mm.max_cache_size ∧
      (mm.lru_map.length ≤ fuel + mm.max_cache_size →
        out.1.lru_map.length ≤ out.1.max_cache_size) := by
  intro fuel
  induction fuel with
  | zero =>
    intro mm bm fr out h hrun
    rw [Cache.evictLoop] at hrun
    cases hrun
    refine ⟨h, rfl, fun hlen => ?_⟩
    show mm.lru_map.length ≤ mm.max_cache_size
    omega
  | succ fuel ih =>
    intro mm bm fr out h hrun
    rw [Cache.evictLoop] at hrun
    by_cases hcond : mm.lru_map.length > mm.max_cache_size
    · rw [if_pos hcond] at hrun
      rcases hlast : mm.lru_list.getLast? with _ | bid
      · have hnil : mm.lru_list = [] := List.getLast?_eq_none_iff.mp hlast
        rw [h.lruMapEq, hnil] at hcond
        simp at hcond
      · rw [hlast] at hrun
        have hrun' : (bm.markBlockAsFree bid).bind
            (fun bm' => Cache.evictLoop fuel (mm.unregisterBlock bid) bm') =
            some out := hrun
        have hmem : bid ∈ mm.lru_list := mem_of_getLast?_own _ _ hlast
        have hmemMap : bid ∈ mm.lru_map := by rw [h.lruMapEq]; exact hmem
        rcases hmf : bm.markBlockAsFree bid with _ | bm'
        · rw [hmf] at hrun'
          cases hrun'
        · rw [hmf] at hrun'
          have hrec : Cache.evictLoop fuel (mm.unregisterBlock bid) bm' =
              some out := hrun'
          have hfr : ∀ f, fr = some f → f ≠ bid := by
            intro f hf he
            subst he
            exact (h.frFresh f hf).1 hmem
          have hstep := mInv_step h hmf hfr
          have hlen := unregisterBlock_lru_length_of_mem hmemMap
          have hmax := unregisterBlock_max mm bid
          obtain ⟨h1, h2, h3⟩ := ih hstep hrec
          refine ⟨h1, by rw [h2, hmax], fun hb => ?_⟩
          apply h3
          rw [hlen, hmax]
          omega
    · rw [if_neg hcond] at hrun
      cases hrun
      refine ⟨h, rfl, fun _ => ?_⟩
      show mm.lru_map.length ≤ mm.max_cache_size
      omega

/-! ### UpdateLRUOrder -/

theorem updateLRU_fields (mm : MetadataManager) (bid : Int) :
    (mm.updateLRUOrder bid).lru_list =
      bid :: (if mm.lru_map.contains bid then mm.lru_list.erase bid
              else mm.lru_list) ∧
    (mm.updateLRUOrder bid).lru_map = bid :: mm.lru_map.erase bid ∧
    (mm.updateLRUOrder bid).block_mapping = mm.block_mapping ∧
    (mm.updateLRUOrder bid).reverse_block_mapping = mm.reverse_block_mapping ∧
    (mm.updateLRUOrder bid).max_cache_size = mm.max_cache_size ∧
    (mm.updateLRUOrder bid).files_metadata = mm.files_metadata :=
  ⟨rfl, rfl, rfl, rfl, rfl, rfl⟩

/-- `UpdateLRUOrder` on an id already in the LRU: the invariant is preserved
and the LRU size is unchanged. -/
theorem mInv_updateLRU_mem {mm : MetadataManager} {bm : BlockManager}
    {bid : Int} (h : MInv mm bm none) (hmem : bid ∈ mm.lru_list) :
    MInv (mm.updateLRUOrder bid) bm none ∧
      (mm.updateLRUOrder bid).lru_map.length = mm.lru_map.length ∧
      (mm.updateLRUOrder bid).max_cache_size = mm.max_cache_size := by
  have hmemMap : bid ∈ mm.lru_map := by rw [h.lruMapEq]; exact hmem
  have hc : mm.lru_map.contains bid = true := (intList_contains_iff _ _).mpr hmemMap
  have hlist : (mm.updateLRUOrder bid).lru_list = bid :: mm.lru_list.erase bid := by
    rw [(updateLRU_fields mm bid).1, if_pos hc]
  have hmap : (mm.updateLRUOrder bid).lru_map = bid :: mm.lru_map.erase bid :=
    (updateLRU_fields mm bid).2.1
  have hsetIff : ∀ x, x ∈ (mm.updateLRUOrder bid).lru_list ↔ x ∈ mm.lru_list := by
    intro x
    rw [hlist]
    constructor
    · intro hx
      rcases List.mem_cons.mp hx with hx | hx
      · rw [hx]; exact hmem
      · exact (List.Nodup.mem_erase_iff h.lruNodup).mp hx |>.2
    · intro hx
      by_cases he : x = bid
      · rw [he]; exact List.mem_cons_self _ _
      · exact List.mem_cons_of_mem _ ((List.mem_erase_of_ne he).mpr hx)
  refine ⟨?_, ?_, rfl⟩
  · constructor
    case lruNodup =>
      rw [hlist]
      exact List.Nodup.cons (fun hx =>
        ((List.Nodup.mem_erase_iff h.lruNodup).mp hx).1 rfl)
        (List.Nodup.erase bid h.lruNodup)
    case lruMapEq =>
      rw [hlist, hmap, h.lruMapEq]
    case bmapKeysNodup => exact h.bmapKeysNodup
    case rmapKeysNodup => exact h.rmapKeysNodup
    case bmapLru =>
      intro k bid' hk
      rcases h.bmapLru k bid' hk with hm | hm
      · exact Or.inl ((hsetIff bid').mpr hm)
      · exact Or.inr hm
    case lruValid =>
      intro x hx
      exact h.lruValid x ((hsetIff x).mp hx)
    case lruFreeDisjoint =>
      intro x hx
      exact h.lruFreeDisjoint x ((hsetIff x).mp hx)
    case pairInv => exact h.pairInv
    case rmapInv => exact h.rmapInv
    case flSorted => exact h.flSorted
    case freeValid => exact h.freeValid
    case frFresh => intro f hf; cases hf
  · rw [hmap, h.lruMapEq]
    rw [List.length_cons, List.length_erase_of_mem hmem]
    have : 0 < mm.lru_list.length := List.length_pos.mpr
      (List.ne_nil_of_mem hmem)
    omega

/-- `UpdateLRUOrder` on the freshly allocated id: the pending-registration
invariant closes back to the boundary invariant, growing the LRU by one. -/
theorem mInv_updateLRU_fresh {mm : MetadataManager} {bm : BlockManager}
    {bid : Int} (h : MInv mm bm (some bid)) :
    MInv (mm.updateLRUOrder bid) bm none ∧
      (mm.updateLRUOrder bid).lru_map.length = mm.lru_map.length + 1 ∧
      (mm.updateLRUOrder bid).max_cache_size = mm.max_cache_size := by
  obtain ⟨hfr1, hfr2, hfr3, hfr4⟩ := h.frFresh bid rfl
  have hmemMap : bid ∉ mm.lru_map := by rw [h.lruMapEq]; exact hfr1
  have hc : ¬mm.lru_map.contains bid = true := by
    intro hc
    exact hmemMap ((intList_contains_iff _ _).mp hc)
  have hlist : (mm.updateLRUOrder bid).lru_list = bid :: mm.lru_list := by
    rw [(updateLRU_fields mm bid).1, if_neg hc]
  have hmap : (mm.updateLRUOrder bid).lru_map = bid :: mm.lru_map := by
    rw [(updateLRU_fields mm bid).2.1, List.erase_of_not_mem hmemMap]
  refine ⟨?_, ?_, rfl⟩
  · constructor
    case lruNodup =>
      rw [hlist]
      exact List.Nodup.cons hfr1 h.lruNodup
    case lruMapEq => rw [hlist, hmap, h.lruMapEq]
    case bmapKeysNodup => exact h.bmapKeysNodup
    case rmapKeysNodup => exact h.rmapKeysNodup
    case bmapLru =>
      intro k bid' hk
      rw [hlist]
      rcases h.bmapLru k bid' hk with hm | hm
      · exact Or.inl (List.mem_cons_of_mem _ hm)
      · exact Or.inl (by rw [Option.some_inj.mp hm]; exact List.mem_cons_self _ _)
    case lruValid =>
      intro x hx
      rw [hlist] at hx
      rcases List.mem_cons.mp hx with hx | hx
      · rw [hx]; exact ⟨hfr3, hfr4⟩
      · exact h.lruValid x hx
    case lruFreeDisjoint =>
      intro x hx
      rw [hlist] at hx
      rcases List.mem_cons.mp hx with hx | hx
      · rw [hx]; exact hfr2
      · exact h.lruFreeDisjoint x hx
    case pairInv => exact h.pairInv
    case rmapInv => exact h.rmapInv
    case flSorted => exact h.flSorted
    case freeValid => exact h.freeValid
    case frFresh => intro f hf; cases hf
  · rw [hmap, List.length_cons]

/-! ### RegisterBlock and AllocBlock -/

theorem registerBlock_fields (mm : MetadataManager) (p : Path) (i : Int)
    (bid : Int) (ck : Nat) :
    (mm.registerBlock p i bid ck).lru_list = mm.lru_list ∧
    (mm.registerBlock p i bid ck).lru_map = mm.lru_map ∧
    (mm.registerBlock p i bid ck).max_cache_size = mm.max_cache_size :=
  ⟨rfl, rfl, rfl⟩

/-- `RegisterBlock` of a freshly allocated id opens the pending-registration
invariant. -/
theorem mInv_register {mm : MetadataManager} {bm : BlockManager} {bid : Int}
    (h : MInv mm bm none) (p : Path) (i : Int) (ck : Nat)
    (hnew : alLookup mm.block_mapping (p, i) = none)
    (hfr1 : bid ∉ mm.lru_list) (hfr2 : bid ∉ bm.free_list)
    (hfr3 : 0 ≤ bid) (hfr4 : bid < (bm.max_block : Int)) :
    MInv (mm.registerBlock p i bid ck) bm (some bid) := by
  have hbmap : (mm.registerBlock p i bid ck).block_mapping =
      alInsert (p, i) bid mm.block_mapping := rfl
  have hrmap : (mm.registerBlock p i bid ck).reverse_block_mapping =
      alInsert bid (p, i) mm.reverse_block_mapping := rfl
  constructor
  case lruNodup => exact h.lruNodup
  case lruMapEq => exact h.lruMapEq
  case bmapKeysNodup =>
    rw [hbmap]
    exact alInsert_keys_nodup _ _ h.bmapKeysNodup
  case rmapKeysNodup =>
    rw [hrmap]
    exact alInsert_keys_nodup _ _ h.rmapKeysNodup
  case bmapLru =>
    intro k bid' hk
    rw [hbmap] at hk
    by_cases hke : k = (p, i)
    · subst hke
      rw [alLookup_alInsert_self] at hk
      exact Or.inr (by rw [Option.some_inj.mp hk])
    · rw [alLookup_alInsert_ne _ _ _ _ hke] at hk
      rcases h.bmapLru k bid' hk with hm | hm
      · exact Or.inl hm
      · cases hm
  case lruValid => exact h.lruValid
  case lruFreeDisjoint => exact h.lruFreeDisjoint
  case pairInv =>
    intro k bid' hk
    rw [hbmap] at hk
    rw [hrmap]
    by_cases hke : k = (p, i)
    · subst hke
      rw [alLookup_alInsert_self] at hk
      rw [← Option.some_inj.mp hk, alLookup_alInsert_self]
    · rw [alLookup_alInsert_ne _ _ _ _ hke] at hk
      have hne : bid' ≠ bid := by
        intro he
        rcases h.bmapLru k bid' hk with hm | hm
        · rw [he] at hm
          exact hfr1 hm
        · cases hm
      rw [alLookup_alInsert_ne _ _ _ _ hne]
      exact h.pairInv k bid' hk
  case rmapInv =>
    intro bid' k' hk
    rw [hrmap] at hk
    rw [hbmap]
    by_cases hbid : bid' = bid
    · subst hbid
      rw [alLookup_alInsert_self] at hk
      rw [← Option.some_inj.mp hk, alLookup_alInsert_self]
    · rw [alLookup_alInsert_ne _ _ _ _ hbid] at hk
      have hbl := h.rmapInv bid' k' hk
      have hkey : k' ≠ (p, i) := by
        intro he
        rw [he, hnew] at hbl
        cases hbl
      rw [alLookup_alInsert_ne _ _ _ _ hkey]
      exact hbl
  case flSorted => exact h.flSorted
  case freeValid => exact h.freeValid
  case frFresh =>
    intro f hf
    rw [← Option.some_inj.mp hf]
    exact ⟨hfr1, hfr2, hfr3, hfr4⟩

/-- The invariant is insensitive to the stored block bytes. -/
theorem mInv_blocks_update {mm : MetadataManager} {bm : BlockManager}
    {fr : Option Int} (h : MInv mm bm fr) (bl : List (Int × List Nat)) :
    MInv mm { bm with blocks := bl } fr :=
  { lruNodup := h.lruNodup
    lruMapEq := h.lruMapEq
    bmapKeysNodup := h.bmapKeysNodup
    rmapKeysNodup := h.rmapKeysNodup
    bmapLru := h.bmapLru
    lruValid := h.lruValid
    lruFreeDisjoint := h.lruFreeDisjoint
    pairInv := h.pairInv
    rmapInv := h.rmapInv
    flSorted := h.flSorted
    freeValid := h.freeValid
    frFresh := h.frFresh }

/-- The invariant is insensitive to the metadata capacity field. -/
theorem mInv_setMaxCacheSize {mm : MetadataManager} {bm : BlockManager}
    {fr : Option Int} (h : MInv mm bm fr) (n : Nat) :
    MInv (mm.setMaxCacheSize n) bm fr :=
  { lruNodup := h.lruNodup
    lruMapEq := h.lruMapEq
    bmapKeysNodup := h.bmapKeysNodup
    rmapKeysNodup := h.rmapKeysNodup
    bmapLru := h.bmapLru
    lruValid := h.lruValid
    lruFreeDisjoint := h.lruFreeDisjoint
    pairInv := h.pairInv
    rmapInv := h.rmapInv
    flSorted := h.flSorted
    freeValid := h.freeValid
    frFresh := h.frFresh }

/-- The invariant is insensitive to the per-file metadata (sizes, timestamps). -/
theorem mInv_files_update {mm : MetadataManager} {bm : BlockManager}
    {fr : Option Int} (h : MInv mm bm fr) (fl : List (Path × FileMetadata)) :
    MInv { mm with files_metadata := fl } bm fr :=
  { lruNodup := h.lruNodup
    lruMapEq := h.lruMapEq
    bmapKeysNodup := h.bmapKeysNodup
    rmapKeysNodup := h.rmapKeysNodup
    bmapLru := h.bmapLru
    lruValid := h.lruValid
    lruFreeDisjoint := h.lruFreeDisjoint
    pairInv := h.pairInv
    rmapInv := h.rmapInv
    flSorted := h.flSorted
    freeValid := h.freeValid
    frFresh := h.frFresh }

/-- `AllocBlock` yields a fresh id: not in the LRU, not in the remaining free
set, valid for the resulting manager; and the invariant carries over. -/
theorem allocBlock_fresh {mm : MetadataManager} {bm : BlockManager}
    (h : MInv mm bm none) :
    MInv mm bm.allocBlock.2 none ∧
      bm.allocBlock.1 ∉ mm.lru_list ∧
      bm.allocBlock.1 ∉ bm.allocBlock.2.free_list ∧
      0 ≤ bm.allocBlock.1 ∧
      bm.allocBlock.1 < (bm.allocBlock.2.max_block : Int) := by
  rcases hfl : bm.free_list with _ | ⟨m, rest⟩
  · have ha : bm.allocBlock = ((bm.max_block : Int),
        { bm with max_block := bm.max_block + 1 }) := by
      rw [BlockManager.allocBlock, hfl]
    rw [ha]
    refine ⟨?_, ?_, ?_, ?_, ?_⟩
    · constructor
      case lruNodup => exact h.lruNodup
      case lruMapEq => exact h.lruMapEq
      case bmapKeysNodup => exact h.bmapKeysNodup
      case rmapKeysNodup => exact h.rmapKeysNodup
      case bmapLru => exact h.bmapLru
      case lruValid =>
        intro x hx
        have := h.lruValid x hx
        constructor
        · exact this.1
        · have h2 := this.2
          push_cast
          push_cast at h2
          omega
      case lruFreeDisjoint => exact h.lruFreeDisjoint
      case pairInv => exact h.pairInv
      case rmapInv => exact h.rmapInv
      case flSorted => exact h.flSorted
      case freeValid =>
        intro x hx
        have := h.freeValid x hx
        constructor
        · exact this.1
        · have h2 := this.2
          push_cast
          push_cast at h2
          omega
      case frFresh => intro f hf; cases hf
    · intro hm
      have := (h.lruValid _ hm).2
      omega
    · intro hm
      rw [hfl] at hm
      cases hm
    · exact Int.natCast_nonneg _
    · push_cast
      omega
  · have ha : bm.allocBlock = (m, { bm with free_list := rest }) := by
      rw [BlockManager.allocBlock, hfl]
    rw [ha]
    have hmmem : m ∈ bm.free_list := by rw [hfl]; exact List.mem_cons_self _ _
    have hrest : ∀ x ∈ rest, x ∈ bm.free_list := by
      intro x hx
      rw [hfl]
      exact List.mem_cons_of_mem _ hx
    have hpw := h.flSorted
    rw [hfl, List.pairwise_cons] at hpw
    refine ⟨?_, ?_, ?_, ?_, ?_⟩
    · constructor
      case lruNodup => exact h.lruNodup
      case lruMapEq => exact h.lruMapEq
      case bmapKeysNodup => exact h.bmapKeysNodup
      case rmapKeysNodup => exact h.rmapKeysNodup
      case bmapLru => exact h.bmapLru
      case lruValid => exact h.lruValid
      case lruFreeDisjoint =>
        intro x hx hmem
        exact h.lruFreeDisjoint x hx (hrest x hmem)
      case pairInv => exact h.pairInv
      case rmapInv => exact h.rmapInv
      case flSorted => exact hpw.2
      case freeValid =>
        intro x hx
        exact h.freeValid x (hrest x hx)
      case frFresh => intro f hf; cases hf
    · intro hm
      exact h.lruFreeDisjoint m hm hmmem
    · intro hm
      have := hpw.1 m hm
      omega
    · exact (h.freeValid m hmmem).1
    · exact (h.freeValid m hmmem).2

theorem storeBlockBM_eq_some {bm : BlockManager} {bid : Int} {data : List Nat}
    {bm' : BlockManager} (h : bm.storeBlock bid data = some bm') :
    bm' = { bm with blocks := alInsert bid data bm.blocks } := by
  rw [BlockManager.storeBlock] at h
  by_cases hv : bm.validateBlockId bid
  · rw [if_pos hv] at h
    exact (Option.some_inj.mp h).symm
  · rw [if_neg hv] at h
    cases h

theorem setDirty_fields (c : Cache) (b : Bool) :
    (c.setDirty b).mm = c.mm ∧ (c.setDirty b).bm = c.bm := by
  rw [Cache.setDirty]
  by_cases hb : b = true
  · rw [if_pos hb]
    exact ⟨rfl, rfl⟩
  · rw [if_neg hb]
    exact ⟨rfl, rfl⟩

theorem option_map_bind {α β γ : Type} (o : Option α) (f : α → β)
    (g : β → Option γ) : (o.map f).bind g = o.bind fun x => g (f x) := by
  cases o <;> rfl

/-- `Cache::StoreBlock` on an unknown `(path, index)`, written with the
allocation projected out of the pair match. -/
theorem storeBlock_new_eq (chk : List Nat → Nat) (c : Cache) (p : Path)
    (i : Int) (data : List Nat)
    (hb : c.mm.getBlockId p i = INVALID_BLOCK_ID) :
    Cache.storeBlock chk c p i data =
      (Cache.evictLRUBlockIfNeeded
          (c.mm.registerBlock p i c.bm.allocBlock.1 (chk data))
          c.bm.allocBlock.2).bind
        (fun r => (r.2.storeBlock c.bm.allocBlock.1 data).map fun bm2 =>
          Cache.setDirty
            { c with mm := r.1.updateLRUOrder c.bm.allocBlock.1, bm := bm2 }
            true) := by
  rw [Cache.storeBlock, if_pos hb]
  show ((Cache.evictLRUBlockIfNeeded
      (c.mm.registerBlock p i c.bm.allocBlock.1 (chk data))
      c.bm.allocBlock.2).map
        (fun r => (r.1, r.2, c.bm.allocBlock.1))).bind
      (fun r => (r.2.1.storeBlock r.2.2 data).map fun bm2 =>
        Cache.setDirty { c with mm := r.1.updateLRUOrder r.2.2, bm := bm2 }
          true) = _
  rw [option_map_bind]

/-- `Cache::StoreBlock` on a known `(path, index)`. -/
theorem storeBlock_known_eq (chk : List Nat → Nat) (c : Cache) (p : Path)
    (i : Int) (data : List Nat)
    (hb : ¬c.mm.getBlockId p i = INVALID_BLOCK_ID) :
    Cache.storeBlock chk c p i data =
      (c.bm.storeBlock (c.mm.getBlockId p i) data).map fun bm2 =>
        Cache.setDirty
          { c with mm := c.mm.updateLRUOrder (c.mm.getBlockId p i), bm := bm2 }
          true := by
  rw [Cache.storeBlock, if_neg hb]
  rfl

/-! ### Operation-level preservation -/

theorem inv_storeBlock {chk : List Nat → Nat} {c c' : Cache} {p : Path}
    {i : Int} {data : List Nat} (h : Inv c)
    (hrun : Cache.storeBlock chk c p i data = some c') : Inv c' := by
  obtain ⟨hm, hlen⟩ := h
  by_cases hb : c.mm.getBlockId p i = INVALID_BLOCK_ID
  · -- unknown (path, index): allocate, register, evict, then insert at front
    obtain ⟨hA1, hA2, hA3, hA4, hA5⟩ := allocBlock_fresh hm
    have hnone : alLookup c.mm.block_mapping (p, i) = none := by
      rcases hq : alLookup c.mm.block_mapping (p, i) with _ | v
      · rfl
      · exfalso
        have hval : c.mm.getBlockId p i = v := by
          rw [MetadataManager.getBlockId, hq]
        rcases hm.bmapLru (p, i) v hq with hmem | hfr
        · have h0 := (hm.lruValid v hmem).1
          have h1 : v = INVALID_BLOCK_ID := by rw [← hval, hb]
          rw [INVALID_BLOCK_ID] at h1
          omega
        · cases hfr
    have hreg := mInv_register hA1 p i (chk data) hnone hA2 hA3 hA4 hA5
    have hrun2 : (Cache.evictLRUBlockIfNeeded
        (c.mm.registerBlock p i c.bm.allocBlock.1 (chk data))
        c.bm.allocBlock.2).bind
          (fun r => (r.2.storeBlock c.bm.allocBlock.1 data).map fun bm2 =>
            Cache.setDirty
              { c with mm := r.1.updateLRUOrder c.bm.allocBlock.1, bm := bm2 }
              true) = some c' := by
      rw [← storeBlock_new_eq chk c p i data hb]
      exact hrun
    rcases hev : Cache.evictLRUBlockIfNeeded
        (c.mm.registerBlock p i c.bm.allocBlock.1 (chk data))
        c.bm.allocBlock.2 with _ | r0
    · rw [hev] at hrun2
      cases hrun2
    · rw [hev] at hrun2
      have hloop := evictLoop_mInv _ hreg hev
      obtain ⟨hL1, hL2, hL3⟩ := hloop
      have hLlen : r0.1.lru_map.length ≤ r0.1.max_cache_size :=
        hL3 (by omega)
      have hup := mInv_updateLRU_fresh hL1
      have hrun3 : ((r0.2.storeBlock c.bm.allocBlock.1 data).map fun bm2 =>
          Cache.setDirty
            { c with mm := r0.1.updateLRUOrder c.bm.allocBlock.1, bm := bm2 }
            true) = some c' := hrun2
      rcases hst : r0.2.storeBlock c.bm.allocBlock.1 data with _ | bm2
      · rw [hst] at hrun3
        cases hrun3
      · rw [hst] at hrun3
        simp only [Option.map_some'] at hrun3
        have hc' : c' = Cache.setDirty
            { c with mm := r0.1.updateLRUOrder c.bm.allocBlock.1, bm := bm2 }
            true := (Option.some_inj.mp hrun3).symm
        have hbm2 := storeBlockBM_eq_some hst
        constructor
        · show MInv c'.mm c'.bm none
          rw [hc']
          have hmm := (setDirty_fields
            { c with mm := r0.1.updateLRUOrder c.bm.allocBlock.1, bm := bm2 }
            true).1
          have hbmf := (setDirty_fields
            { c with mm := r0.1.updateLRUOrder c.bm.allocBlock.1, bm := bm2 }
            true).2
          rw [hmm, hbmf]
          show MInv (r0.1.updateLRUOrder c.bm.allocBlock.1) bm2 none
          rw [hbm2]
          exact mInv_blocks_update hup.1 _
        · show c'.mm.lru_map.length ≤ c'.mm.max_cache_size + 1
          rw [hc']
          have hmm := (setDirty_fields
            { c with mm := r0.1.updateLRUOrder c.bm.allocBlock.1, bm := bm2 }
            true).1
          rw [hmm]
          show (r0.1.updateLRUOrder c.bm.allocBlock.1).lru_map.length ≤
            (r0.1.updateLRUOrder c.bm.allocBlock.1).max_cache_size + 1
          rw [hup.2.1, hup.2.2]
          omega
  · -- known (path, index): only the LRU order and the block bytes change
    have hsome : alLookup c.mm.block_mapping (p, i) =
        some (c.mm.getBlockId p i) := by
      rw [MetadataManager.getBlockId]
      rcases hq : alLookup c.mm.block_mapping (p, i) with _ | v
      · exfalso
        apply hb
        rw [MetadataManager.getBlockId, hq]
      · rfl
    have hmem : c.mm.getBlockId p i ∈ c.mm.lru_list := by
      rcases hm.bmapLru (p, i) _ hsome with h1 | h1
      · exact h1
      · cases h1
    have hrun3 : ((c.bm.storeBlock (c.mm.getBlockId p i) data).map fun bm2 =>
        Cache.setDirty
          { c with mm := c.mm.updateLRUOrder (c.mm.getBlockId p i), bm := bm2 }
          true) = some c' := by
      rw [← storeBlock_known_eq chk c p i data hb]
      exact hrun
    rcases hst : c.bm.storeBlock (c.mm.getBlockId p i) data with _ | bm2
    · rw [hst] at hrun3
      cases hrun3
    · rw [hst] at hrun3
      simp only [Option.map_some'] at hrun3
      have hc' : c' = Cache.setDirty
          { c with mm := c.mm.updateLRUOrder (c.mm.getBlockId p i), bm := bm2 }
          true := (Option.some_inj.mp hrun3).symm
      have hup := mInv_updateLRU_mem hm hmem
      have hbm2 := storeBlockBM_eq_some hst
      constructor
      · show MInv c'.mm c'.bm none
        rw [hc']
        rw [(setDirty_fields _ true).1, (setDirty_fields _ true).2]
        show MInv (c.mm.updateLRUOrder (c.mm.getBlockId p i)) bm2 none
        rw [hbm2]
        exact mInv_blocks_update hup.1 _
      · show c'.mm.lru_map.length ≤ c'.mm.max_cache_size + 1
        rw [hc', (setDirty_fields _ true).1]
        show (c.mm.updateLRUOrder (c.mm.getBlockId p i)).lru_map.length ≤
          (c.mm.updateLRUOrder (c.mm.getBlockId p i)).max_cache_size + 1
        rw [hup.2.1, hup.2.2]
        exact hlen

theorem unregisterBlock_lru_length_le (mm : MetadataManager) (bid : Int) :
    (mm.unregisterBlock bid).lru_map.length ≤ mm.lru_map.length := by
  rw [unregisterBlock_lru_map]
  by_cases hc : mm.lru_map.contains bid
  · rw [if_pos hc]
    exact List.Sublist.length_le (List.erase_sublist bid mm.lru_map)
  · rw [if_neg hc]

theorem inv_retrieveBlock {chk : List Nat → Nat} {c : Cache} {p : Path}
    {i : Int} {out : Cache × Bool} (h : Inv c)
    (hrun : Cache.retrieveBlock chk c p i = some out) : Inv out.1 := by
  obtain ⟨hm, hlen⟩ := h
  rw [Cache.retrieveBlock] at hrun
  by_cases hb : c.mm.getBlockId p i = INVALID_BLOCK_ID
  · rw [if_pos hb] at hrun
    cases hrun
    exact ⟨hm, hlen⟩
  · rw [if_neg hb] at hrun
    rcases hinfo : c.mm.getBlockInfo p (c.mm.getBlockId p i) with _ | info
    · rw [hinfo] at hrun
      cases hrun
    · rw [hinfo] at hrun
      have hsome : alLookup c.mm.block_mapping (p, i) =
          some (c.mm.getBlockId p i) := by
        rw [MetadataManager.getBlockId]
        rcases hq : alLookup c.mm.block_mapping (p, i) with _ | v
        · exfalso
          apply hb
          rw [MetadataManager.getBlockId, hq]
        · rfl
      have hmem : c.mm.getBlockId p i ∈ c.mm.lru_list := by
        rcases hm.bmapLru (p, i) _ hsome with h1 | h1
        · exact h1
        · cases h1
      have hup := mInv_updateLRU_mem hm hmem
      have hrun2 : ((c.bm.retrieveBlock (c.mm.getBlockId p i)).bind fun bytes =>
          if info.checksum ≠ chk bytes then
            (c.bm.markBlockAsFree (c.mm.getBlockId p i)).map fun bm1 =>
              (Cache.setDirty
                { c with
                  mm := (c.mm.updateLRUOrder
                    (c.mm.getBlockId p i)).unregisterBlock
                      (c.mm.getBlockId p i)
                  bm := bm1 } true, false)
          else
            some (Cache.setDirty
              { c with mm := c.mm.updateLRUOrder (c.mm.getBlockId p i)
                       bm := c.bm } true, true)) = some out := hrun
      rcases hrd : c.bm.retrieveBlock (c.mm.getBlockId p i) with _ | bytes
      · rw [hrd] at hrun2
        cases hrun2
      · rw [hrd] at hrun2
        have hrun3 : (if info.checksum ≠ chk bytes then
            (c.bm.markBlockAsFree (c.mm.getBlockId p i)).map fun bm1 =>
              (Cache.setDirty
                { c with
                  mm := (c.mm.updateLRUOrder
                    (c.mm.getBlockId p i)).unregisterBlock
                      (c.mm.getBlockId p i)
                  bm := bm1 } true, false)
          else
            some (Cache.setDirty
              { c with mm := c.mm.updateLRUOrder (c.mm.getBlockId p i)
                       bm := c.bm } true, true)) = some out := hrun2
        by_cases hck : info.checksum ≠ chk bytes
        · rw [if_pos hck] at hrun3
          rcases hmf : c.bm.markBlockAsFree (c.mm.getBlockId p i) with _ | bm1
          · rw [hmf] at hrun3
            cases hrun3
          · rw [hmf] at hrun3
            simp only [Option.map_some'] at hrun3
            have hout : out = (Cache.setDirty
                { c with
                  mm := (c.mm.updateLRUOrder
                    (c.mm.getBlockId p i)).unregisterBlock
                      (c.mm.getBlockId p i)
                  bm := bm1 } true, false) := (Option.some_inj.mp hrun3).symm
            have hstep := mInv_step hup.1 hmf (fun f hf => by cases hf)
            constructor
            · rw [hout]
              show MInv _ bm1 none
              rw [(setDirty_fields _ true).1]
              exact hstep
            · rw [hout]
              show ((c.mm.updateLRUOrder (c.mm.getBlockId p i)).unregisterBlock
                  (c.mm.getBlockId p i)).lru_map.length ≤
                ((c.mm.updateLRUOrder (c.mm.getBlockId p i)).unregisterBlock
                  (c.mm.getBlockId p i)).max_cache_size + 1
              have h1 := unregisterBlock_lru_length_le
                (c.mm.updateLRUOrder (c.mm.getBlockId p i))
                (c.mm.getBlockId p i)
              rw [unregisterBlock_max, hup.2.2]
              have h2 := hup.2.1
              omega
        · rw [if_neg hck] at hrun3
          have hout : out = (Cache.setDirty
              { c with mm := c.mm.updateLRUOrder (c.mm.getBlockId p i)
                       bm := c.bm } true, true) := (Option.some_inj.mp hrun3).symm
          constructor
          · rw [hout]
            show MInv _ c.bm none
            rw [(setDirty_fields _ true).1]
            exact hup.1
          · rw [hout]
            show (c.mm.updateLRUOrder (c.mm.getBlockId p i)).lru_map.length ≤
              (c.mm.updateLRUOrder (c.mm.getBlockId p i)).max_cache_size + 1
            rw [hup.2.1, hup.2.2]
            exact hlen

theorem evict_fold_inv : ∀ (entries : List (Int × FileMetadataBlockInfo))
    {mm : MetadataManager} {bm : BlockManager}
    {r : MetadataManager × BlockManager}, MInv mm bm none →
    entries.foldlM
      (fun (acc : MetadataManager × BlockManager) e =>
        (acc.2.markBlockAsFree e.2.block_id).map fun bm' =>
          (acc.1.unregisterBlock e.2.block_id, bm'))
      (mm, bm) = some r →
    MInv r.1 r.2 none ∧ r.1.lru_map.length ≤ mm.lru_map.length ∧
      r.1.max_cache_size = mm.max_cache_size := by
  intro entries
  induction entries with
  | nil =>
    intro mm bm r hm hrun
    cases hrun
    exact ⟨hm, le_refl _, rfl⟩
  | cons e rest ih =>
    intro mm bm r hm hrun
    rw [List.foldlM_cons] at hrun
    rcases hmf : bm.markBlockAsFree e.2.block_id with _ | bm'
    · rw [hmf] at hrun
      cases hrun
    · rw [hmf] at hrun
      have hrun2 : rest.foldlM
          (fun (acc : MetadataManager × BlockManager) e =>
            (acc.2.markBlockAsFree e.2.block_id).map fun bm' =>
              (acc.1.unregisterBlock e.2.block_id, bm'))
          (mm.unregisterBlock e.2.block_id, bm') = some r := hrun
      have hstep := mInv_step hm hmf (fun f hf => by cases hf)
      obtain ⟨h1, h2, h3⟩ := ih hstep hrun2
      refine ⟨h1, ?_, ?_⟩
      · exact le_trans h2 (unregisterBlock_lru_length_le mm e.2.block_id)
      · rw [h3, unregisterBlock_max]

theorem inv_evict {c : Cache} {p : Path} {c' : Cache} (h : Inv c)
    (hrun : Cache.evict c p = some c') : Inv c' := by
  obtain ⟨hm, hlen⟩ := h
  rw [Cache.evict] at hrun
  rcases hmd : c.mm.getFileMetadata p with _ | md
  · rw [hmd] at hrun
    cases hrun
    exact ⟨hm, hlen⟩
  · rw [hmd] at hrun
    have hrun2 : ((md.blocks.foldlM
        (fun (acc : MetadataManager × BlockManager) e =>
          (acc.2.markBlockAsFree e.2.block_id).map fun bm' =>
            (acc.1.unregisterBlock e.2.block_id, bm'))
        (c.mm, c.bm)).map fun r =>
          Cache.setDirty { c with mm := r.1, bm := r.2 }
            !md.blocks.isEmpty) = some c' := hrun
    rcases hfold : md.blocks.foldlM
        (fun (acc : MetadataManager × BlockManager) e =>
          (acc.2.markBlockAsFree e.2.block_id).map fun bm' =>
            (acc.1.unregisterBlock e.2.block_id, bm'))
        (c.mm, c.bm) with _ | r
    · rw [hfold] at hrun2
      cases hrun2
    · rw [hfold] at hrun2
      simp only [Option.map_some'] at hrun2
      have hc' : c' = Cache.setDirty { c with mm := r.1, bm := r.2 }
          !md.blocks.isEmpty := (Option.some_inj.mp hrun2).symm
      obtain ⟨h1, h2, h3⟩ := evict_fold_inv md.blocks hm hfold
      constructor
      · rw [hc']
        show MInv _ _ none
        rw [(setDirty_fields _ _).1, (setDirty_fields _ _).2]
        exact h1
      · rw [hc', (setDirty_fields _ _).1]
        show r.1.lru_map.length ≤ r.1.max_cache_size + 1
        rw [h3]
        omega

theorem inv_setMaxCacheSize {c : Cache} {bytes : Nat} {c' : Cache} (h : Inv c)
    (hrun : Cache.setMaxCacheSize c bytes = some c') : Inv c' := by
  obtain ⟨hm, _⟩ := h
  rw [Cache.setMaxCacheSize] at hrun
  have hm1 : MInv (c.mm.setMaxCacheSize
      (Cache.numBlocksFromSize bytes c.block_size)) c.bm none :=
    mInv_setMaxCacheSize hm _
  rcases hev : Cache.evictLRUBlockIfNeeded
      (c.mm.setMaxCacheSize (Cache.numBlocksFromSize bytes c.block_size))
      c.bm with _ | r0
  · rw [hev] at hrun
    cases hrun
  · rw [hev] at hrun
    simp only [Option.map_some'] at hrun
    have hc' : c' = Cache.setDirty { c with mm := r0.1, bm := r0.2 } true :=
      (Option.some_inj.mp hrun).symm
    obtain ⟨h1, h2, h3⟩ := evictLoop_mInv _ hm1 hev
    constructor
    · rw [hc']
      show MInv _ _ none
      rw [(setDirty_fields _ true).1, (setDirty_fields _ true).2]
      exact h1
    · rw [hc', (setDirty_fields _ true).1]
      show r0.1.lru_map.length ≤ r0.1.max_cache_size + 1
      have := h3 (by omega)
      omega

theorem inv_storeFileSize {c : Cache} (p : Path) (sz : Nat) (h : Inv c) :
    Inv (Cache.storeFileSize c p sz) := by
  obtain ⟨hm, hlen⟩ := h
  constructor
  · show MInv _ _ none
    rw [Cache.storeFileSize, (setDirty_fields _ true).1, (setDirty_fields _ true).2]
    show MInv (c.mm.setFileSize p sz) c.bm none
    exact mInv_files_update hm _
  · rw [Cache.storeFileSize, (setDirty_fields _ true).1]
    exact hlen

theorem inv_storeFileLastModified {c : Cache} (p : Path) (ts : Int)
    (h : Inv c) : Inv (Cache.storeFileLastModified c p ts) := by
  obtain ⟨hm, hlen⟩ := h
  constructor
  · show MInv _ _ none
    rw [Cache.storeFileLastModified, (setDirty_fields _ true).1,
      (setDirty_fields _ true).2]
    show MInv (c.mm.setFileLastModified p ts) c.bm none
    exact mInv_files_update hm _
  · rw [Cache.storeFileLastModified, (setDirty_fields _ true).1]
    exact hlen

theorem inv_applyOp {chk : List Nat → Nat} {c : Cache} {op : Op} {c' : Cache}
    (h : Inv c) (hrun : applyOp chk c op = some c') : Inv c' := by
  cases op with
  | storeBlock p i data => exact inv_storeBlock h hrun
  | retrieveBlock p i =>
    rw [applyOp] at hrun
    rcases hr : Cache.retrieveBlock chk c p i with _ | out
    · rw [hr] at hrun
      cases hrun
    · rw [hr] at hrun
      simp only [Option.map_some'] at hrun
      rw [← Option.some_inj.mp hrun]
      exact inv_retrieveBlock h hr
  | evict p => exact inv_evict h hrun
  | setMaxCacheSize b => exact inv_setMaxCacheSize h hrun
  | storeFileSize p sz =>
    rw [applyOp] at hrun
    rw [← Option.some_inj.mp hrun]
    exact inv_storeFileSize p sz h
  | storeFileLastModified p ts =>
    rw [applyOp] at hrun
    rw [← Option.some_inj.mp hrun]
    exact inv_storeFileLastModified p ts h

theorem inv_runOps {chk : List Nat → Nat} : ∀ (ops : List Op) {c s : Cache},
    Inv c → runOps chk c ops = some s → Inv s := by
  intro ops
  induction ops with
  | nil =>
    intro c s h hrun
    cases hrun
    exact h
  | cons op rest ih =>
    intro c s h hrun
    rw [runOps] at hrun
    rcases hap : applyOp chk c op with _ | c1
    · rw [hap] at hrun
      cases hrun
    · rw [hap] at hrun
      exact ih (inv_applyOp h hap) hrun

theorem inv_initCache (bsz maxBlocks : Nat) : Inv (initCache bsz maxBlocks) := by
  constructor
  · constructor
    case lruNodup => exact List.nodup_nil
    case lruMapEq => rfl
    case bmapKeysNodup => exact List.nodup_nil
    case rmapKeysNodup => exact List.nodup_nil
    case bmapLru => intro k bid hk; cases hk
    case lruValid => intro bid hb; cases hb
    case lruFreeDisjoint => intro bid hb; cases hb
    case pairInv => intro k bid hk; cases hk
    case rmapInv => intro bid k hk; cases hk
    case flSorted => exact List.Pairwise.nil
    case freeValid => intro bid hb; cases hb
    case frFresh => intro f hf; cases hf
  · show (0 : Nat) ≤ maxBlocks + 1
    omega

/-! ### Survival of a registered entry -/

theorem getBlockInfo_congr {m1 m2 : MetadataManager}
    (h : m1.files_metadata = m2.files_metadata) (p : Path) (bid : Int) :
    m1.getBlockInfo p bid = m2.getBlockInfo p bid := by
  rw [MetadataManager.getBlockInfo, MetadataManager.getBlockInfo, h]

theorem unregisterBlock_files (mm : MetadataManager) (bid : Int) :
    (mm.unregisterBlock bid).files_metadata =
      (mm.unregisterMaps bid).files_metadata := by
  rw [MetadataManager.unregisterBlock]
  by_cases h : (mm.unregisterMaps bid).lru_map.contains bid
  · rw [if_pos h]
  · rw [if_neg h]

theorem getBlockInfo_eq_some {mm : MetadataManager} {p : Path} {bid : Int}
    {info : FileMetadataBlockInfo} (h : mm.getBlockInfo p bid = some info) :
    ∃ fm, alLookup mm.files_metadata p = some fm ∧
      alLookup fm.blocks bid = some info := by
  rw [MetadataManager.getBlockInfo] at h
  rcases hf : alLookup mm.files_metadata p with _ | fm
  · rw [hf] at h
    cases h
  · rw [hf] at h
    exact ⟨fm, rfl, h⟩

theorem unregisterMaps_files_some_some {mm : MetadataManager} {t : Int}
    {key : BlockKey} {fm : FileMetadata}
    (h : alLookup mm.reverse_block_mapping t = some key)
    (hf : alLookup mm.files_metadata key.1 = some fm) :
    (mm.unregisterMaps t).files_metadata =
      if (alErase t fm.blocks).isEmpty then alErase key.1 mm.files_metadata
      else omUpsert pathLt key.1 { fm with blocks := alErase t fm.blocks }
        mm.files_metadata := by
  rw [MetadataManager.unregisterMaps, h]
  show (match alLookup mm.files_metadata key.1 with
        | some fm =>
          let blocks' := alErase t fm.blocks
          if blocks'.isEmpty then alErase key.1 mm.files_metadata
          else omUpsert pathLt key.1 { fm with blocks := blocks' }
            mm.files_metadata
        | none => mm.files_metadata) = _
  rw [hf]

theorem unregisterMaps_files_some_none {mm : MetadataManager} {t : Int}
    {key : BlockKey} (h : alLookup mm.reverse_block_mapping t = some key)
    (hf : alLookup mm.files_metadata key.1 = none) :
    (mm.unregisterMaps t).files_metadata = mm.files_metadata := by
  rw [MetadataManager.unregisterMaps, h]
  show (match alLookup mm.files_metadata key.1 with
        | some fm =>
          let blocks' := alErase t fm.blocks
          if blocks'.isEmpty then alErase key.1 mm.files_metadata
          else omUpsert pathLt key.1 { fm with blocks := blocks' }
            mm.files_metadata
        | none => mm.files_metadata) = _
  rw [hf]

/-- Unregistering a block `t` other than `bid` leaves the registration of
`bid` for `(p, i)` and its recorded `BlockInfo` untouched. -/
theorem unregisterBlock_keeps_entry {mm : MetadataManager} {bm : BlockManager}
    {fr : Option Int} {t bid : Int} {p : Path} {i : Int}
    {info : FileMetadataBlockInfo} (h : MInv mm bm fr) (hne : t ≠ bid)
    (hb : alLookup mm.block_mapping (p, i) = some bid)
    (hi : mm.getBlockInfo p bid = some info) :
    alLookup (mm.unregisterBlock t).block_mapping (p, i) = some bid ∧
      (mm.unregisterBlock t).getBlockInfo p bid = some info := by
  rw [unregisterBlock_bmap,
    getBlockInfo_congr (unregisterBlock_files mm t) p bid]
  obtain ⟨fmp, hfp, hbi⟩ := getBlockInfo_eq_some hi
  rcases hrm : alLookup mm.reverse_block_mapping t with _ | key
  · rw [unregisterMaps_rmap_none hrm]
    exact ⟨hb, hi⟩
  · have hkey : key ≠ (p, i) := by
      intro he
      have h1 := h.rmapInv t key hrm
      rw [he, hb] at h1
      exact hne (Option.some_inj.mp h1).symm
    refine ⟨?_, ?_⟩
    · rw [unregisterMaps_bmap_of_some hrm,
        alLookup_alErase_ne mm.block_mapping key (p, i)
          (fun he => hkey he.symm)]
      exact hb
    · rcases hft : alLookup mm.files_metadata key.1 with _ | fmt
      · rw [MetadataManager.getBlockInfo,
          unregisterMaps_files_some_none hrm hft, hfp]
        exact hbi
      · by_cases hpt : key.1 = p
        · have hfmt : fmt = fmp := by
            have h1 : alLookup mm.files_metadata p = some fmt := by
              rw [← hpt]
              exact hft
            rw [h1] at hfp
            exact Option.some_inj.mp hfp
          subst hfmt
          have hbl : alLookup (alErase t fmt.blocks) bid = some info := by
            rw [alLookup_alErase_ne fmt.blocks t bid (fun he => hne he.symm)]
            exact hbi
          have hempty : ¬((alErase t fmt.blocks).isEmpty = true) := by
            rcases hq : alErase t fmt.blocks with _ | ⟨e, rest⟩
            · rw [hq] at hbl
              simp [alLookup] at hbl
            · intro hcontra
              simp at hcontra
          have hfiles : (mm.unregisterMaps t).files_metadata =
              omUpsert pathLt key.1
                { fmt with blocks := alErase t fmt.blocks }
                mm.files_metadata := by
            rw [unregisterMaps_files_some_some hrm hft, if_neg hempty]
          rw [MetadataManager.getBlockInfo, hfiles, hpt,
            alLookup_omUpsert_self]
          exact hbl
        · have hlook : alLookup (mm.unregisterMaps t).files_metadata p =
              some fmp := by
            rw [unregisterMaps_files_some_some hrm hft]
            by_cases he : (alErase t fmt.blocks).isEmpty = true
            · rw [if_pos he,
                alLookup_alErase_ne mm.files_metadata key.1 p
                  (fun h2 => hpt h2.symm)]
              exact hfp
            · rw [if_neg he,
                alLookup_omUpsert_ne pathLt mm.files_metadata key.1 p _
                  (fun h2 => hpt h2.symm)]
              exact hfp
          rw [MetadataManager.getBlockInfo, hlook]
          exact hbi

/-- The eviction loop never evicts the freshly registered block: its map
entry and recorded `BlockInfo` survive the loop. -/
theorem evictLoop_keeps_entry : ∀ (fuel : Nat) {mm : MetadataManager}
    {bm : BlockManager} {bid : Int} {p : Path} {i : Int}
    {info : FileMetadataBlockInfo} {out : MetadataManager × BlockManager},
    MInv mm bm (some bid) → Cache.evictLoop fuel mm bm = some out →
    alLookup mm.block_mapping (p, i) = some bid →
    mm.getBlockInfo p bid = some info →
    alLookup out.1.block_mapping (p, i) = some bid ∧
      out.1.getBlockInfo p bid = some info := by
  intro fuel
  induction fuel with
  | zero =>
    intro mm bm bid p i info out h hrun hb hi
    rw [Cache.evictLoop] at hrun
    cases hrun
    exact ⟨hb, hi⟩
  | succ fuel ih =>
    intro mm bm bid p i info out h hrun hb hi
    rw [Cache.evictLoop] at hrun
    by_cases hcond : mm.lru_map.length > mm.max_cache_size
    · rw [if_pos hcond] at hrun
      rcases hlast : mm.lru_list.getLast? with _ | t
      · rw [hlast] at hrun
        have hrun' : Cache.evictLoop fuel mm bm = some out := hrun
        exact ih h hrun' hb hi
      · rw [hlast] at hrun
        have hrun' : (bm.markBlockAsFree t).bind
            (fun bm' => Cache.evictLoop fuel (mm.unregisterBlock t) bm') =
            some out := hrun
        have hmem : t ∈ mm.lru_list := mem_of_getLast?_own _ _ hlast
        have hne : t ≠ bid := by
          intro he
          subst he
          exact (h.frFresh t rfl).1 hmem
        rcases hmf : bm.markBlockAsFree t with _ | bm'
        · rw [hmf] at hrun'
          cases hrun'
        · rw [hmf] at hrun'
          have hrec : Cache.evictLoop fuel (mm.unregisterBlock t) bm' =
              some out := hrun'
          have hfr : ∀ f, (some bid : Option Int) = some f → f ≠ t := by
            intro f hf he
            subst he
            exact hne (Option.some_inj.mp hf).symm
          have hstep := mInv_step h hmf hfr
          have hkeep := unregisterBlock_keeps_entry h hne hb hi
          exact ih hstep hrec hkeep.1 hkeep.2
    · rw [if_neg hcond] at hrun
      cases hrun
      exact ⟨hb, hi⟩

/-- `RegisterBlock` records the id in the map and the `BlockInfo` built from
the index, the id and the given checksum in the file's `blocks`. -/
theorem registerBlock_entry (mm : MetadataManager) (p : Path) (i : Int)
    (bid : Int) (ck : Nat) :
    alLookup (mm.registerBlock p i bid ck).block_mapping (p, i) = some bid ∧
      (mm.registerBlock p i bid ck).getBlockInfo p bid =
        some ⟨i, bid, ck⟩ := by
  refine ⟨alLookup_alInsert_self _ _ _, ?_⟩
  rw [MetadataManager.getBlockInfo]
  have hfl : alLookup (mm.registerBlock p i bid ck).files_metadata p =
      some { (match alLookup mm.files_metadata p with
              | some fm => fm
              | none => ({} : FileMetadata)) with
             blocks :=
               omUpsert intLt bid
                 (⟨i, bid, ck⟩ : FileMetadataBlockInfo)
                 (match alLookup mm.files_metadata p with
                  | some fm => fm
                  | none => ({} : FileMetadata)).blocks } :=
    alLookup_omUpsert_self pathLt mm.files_metadata p _
  rw [hfl]
  exact alLookup_omUpsert_self intLt _ bid
    (⟨i, bid, ck⟩ : FileMetadataBlockInfo)

/-- The bytes just stored are the bytes read back. -/
theorem blockBytes_alInsert (bm : BlockManager) (bid : Int)
    (data : List Nat) :
    BlockManager.blockBytes { bm with blocks := alInsert bid data bm.blocks }
      bid = data := by
  rw [BlockManager.blockBytes]
  have h : alLookup (alInsert bid data bm.blocks) bid = some data :=
    alLookup_alInsert_self _ _ _
  rw [h]

/-! ## Claim C1 -/

/-- A concrete checksum function standing in for `duckdb::Checksum` in
counterexamples and witnesses (the first byte of the buffer). -/
def headChk : List Nat → Nat := fun l => l.headD 0

/-- Claim C1, counterexample: from an empty open cache with capacity 1 block,
storing two previously unknown `(path, index)` pairs leaves `lru_map` with 2
entries against a capacity of 1 — `Cache::StoreBlock` runs the eviction loop
before `UpdateLRUOrder` inserts the new block, so the claimed bound
`|lru_map| ≤ max_cache_size_in_blocks` fails right after the operation
returns. -/
theorem C1_lru_bound_counterexample :
    (runOps headChk (initCache 1 1)
        [Op.storeBlock [102] 0 [7], Op.storeBlock [102] 1 [8]]).map
      (fun s => (s.mm.lru_map.length, s.mm.max_cache_size)) = some (2, 1) ∧
    ¬(2 ≤ 1) := by
  constructor
  · rfl
  · omega

/-- Claim C1 (amended): for every sequence of coordinator operations
(`store_block`, `retrieve_block`, `evict`, `set_max_cache_size`,
`store_file_size`, `store_file_last_modified`) starting from an empty open
cache with any capacity, the number of entries in `lru_map` after each
operation returns is at most `max_cache_size_in_blocks + 1`: the eviction
loop itself enforces `≤ max_cache_size`, but `store_block` of a previously
unknown `(path, index)` inserts the new block into the LRU after eviction
has already run, so the bound achievable at operation boundaries is one more
than the capacity. -/
theorem C1_lru_bound_amended (chk : List Nat → Nat) (bsz maxBlocks : Nat)
    (ops : List Op) (s : Cache)
    (h : runOps chk (initCache bsz maxBlocks) ops = some s) :
    s.mm.lru_map.length ≤ s.mm.max_cache_size + 1 :=
  (inv_runOps ops (inv_initCache bsz maxBlocks) h).2

/-- The state reached by one concrete `store_block` from an empty cache,
used to witness the amended C1 bound. -/
def c1WitnessState : Cache :=
  (runOps headChk (initCache 1 1) [Op.storeBlock [102] 0 [7]]).getD
    (initCache 1 1)

/-- Witness for the amended C1 bound at a concrete run. -/
theorem C1_lru_bound_amended_witness :
    c1WitnessState.mm.lru_map.length ≤ c1WitnessState.mm.max_cache_size + 1 :=
  C1_lru_bound_amended headChk 1 1 [Op.storeBlock [102] 0 [7]] c1WitnessState
    (by rfl)

/-! ## Claim C9 -/

/-- Claim C9: `Cache::Evict` on a path whose file entry contains no blocks
clears the dirty flag.  `StoreFileSize` creates a block-less entry and sets
`dirty = 1`; `Evict` of that path then reaches `SetDirty(evicted)` with
`evicted = false`, which zeroes the counter — contradicting the code's own
comment ("Only mark dirty if something was actually evicted") and the claim
that only `flush`/`close`/`clear` ever clear the flag. -/
theorem C9_evict_clears_dirty :
    (runOps headChk (initCache 1 10) [Op.storeFileSize [102] 5]).map
      (fun s => s.dirty) = some 1 ∧
    (runOps headChk (initCache 1 10)
        [Op.storeFileSize [102] 5, Op.evict [102]]).map (fun s => s.dirty) =
      some 0 := by
  constructor
  · rfl
  · rfl

/-! ## Claim C7 -/

/-- Claim C7, counterexample: the header version field written by
`BlockManager::WriteHeader` (from `src/unnamed/part_006`) is
`BLOCK_CACHE_DATA_FILE_VERSION_NUMBER = 2`, not 3 as claimed. -/
theorem C7_header_version_counterexample :
    (BlockManager.writeHeader { block_size := 24 }).version = 2 ∧
    ¬(BlockManager.writeHeader { block_size := 24 }).version = 3 := by
  constructor
  · rfl
  · decide

/-- Claim C7 (amended): whenever the block store of the source snapshot
writes the backing-file header — on `CreateNewDatabase` and on every
`Flush` — the version field written equals
`BLOCK_CACHE_DATA_FILE_VERSION_NUMBER`, which is 2 (the quackstore-generation
block manager, whose metadata format is version 3, is not part of the source
snapshot; `src/unnamed/part_006` is the cachefs generation). -/
theorem C7_header_version_amended :
    BLOCK_CACHE_DATA_FILE_VERSION_NUMBER = 2 ∧
    (∀ bsz : Nat, (BlockManager.createNewDatabase bsz).2.version = 2) ∧
    (∀ bm : BlockManager, (BlockManager.writeHeader bm).version = 2) ∧
    (∀ bm : BlockManager, (BlockManager.flushBM bm).elim True
      (fun r => r.2.version = 2)) := by
  refine ⟨rfl, fun bsz => rfl, fun bm => rfl, fun bm => ?_⟩
  rw [BlockManager.flushBM]
  rcases BlockManager.saveFreeList bm with _ | bm'
  · exact trivial
  · rfl

/-! ## Claim C4 -/

/-- The failing input for claim C4: a fresh store with `block_size = 24`
whose blocks 0, 1, 2 have been allocated and then all marked free (the old
free-list chain is `INVALID`, so nothing is leaked from it). -/
def c4bm : BlockManager :=
  let bm0 : BlockManager := { block_size := 24 }
  let bm1 := bm0.allocBlock.2
  let bm2 := bm1.allocBlock.2
  let bm3 := bm2.allocBlock.2
  let bm4 := match bm3.markBlockAsFree 0 with | some b => b | none => bm3
  let bm5 := match bm4.markBlockAsFree 1 with | some b => b | none => bm4
  match bm5.markBlockAsFree 2 with | some b => b | none => bm5

/-- Claim C4, evaluated at the failing input: `SaveFreeList` allocates the
first chain block (0) before snapshotting the count, but the ids written are
those of the set at that moment — so chain block 1, allocated while the
writer extends the chain, is both occupied by the new chain (`[0, 1]`) and
recorded in the persisted list.  The in-memory free set after the save is
`[2]`, while `LoadFreeList` restores `[1, 2]`: the persisted list does not
equal the free set as it stands after all chain blocks are allocated, and a
later load restores a different set. -/
theorem C4_saveFreeList_divergence :
    ((BlockManager.saveFreeList c4bm).map fun bm' =>
      (bm'.free_list, bm'.free_list_id,
        BlockManager.chainBlocks (bm'.max_block + 1) bm' bm'.free_list_id)) =
      some ([2], 0, some [0, 1]) ∧
    ((BlockManager.saveFreeList c4bm).bind fun bm' =>
      (BlockManager.loadFreeList bm').map fun bm'' => bm''.free_list) =
      some [1, 2] ∧
    (1 : Int) ∈ [(0 : Int), 1] ∧ ¬([(1 : Int), 2] = [2]) := by
  refine ⟨?_, ?_, ?_, ?_⟩
  · rfl
  · rfl
  · decide
  · decide

/-! ## Claim C10 -/

theorem setDirty_true_eq (c : Cache) :
    c.setDirty true = { c with dirty := c.dirty + 1 } := rfl

/-- Claim C10: after every successful `Cache::Open` that actually transitions
the coordinator to open — whether a new backing file was created or an
existing one was loaded — the dirty counter is incremented (so the flag is
set), and consequently the first `Flush` after `Open` does not take the
clean/no-op path: whenever it returns it reports that it freed and rewrote
the metadata chain and the header, and it leaves the flag clear. -/
theorem C10_open_sets_dirty (c : Cache) (p : Path) (loadedExisting : Bool)
    (bmL : BlockManager) (mmL : MetadataManager) (c1 : Cache)
    (hnot : c.opened = false) (hp : ¬p.isEmpty = true)
    (hopen : Cache.openCache c p loadedExisting bmL mmL = some c1) :
    c1.dirty = c.dirty + 1 ∧ c1.opened = true ∧
      Cache.flush c1 ≠ some (c1, false) ∧
      ∀ r, Cache.flush c1 = some r → r.2 = true ∧ r.1.dirty = 0 := by
  rw [Cache.openCache] at hopen
  rw [hnot] at hopen
  simp only [Bool.false_eq_true, if_false] at hopen
  rw [if_neg hp] at hopen
  have hc1 : c1 = Cache.setDirty
      { c with bm := bmL
               mm := if loadedExisting then mmL else c.mm
               path := p
               opened := true } true := (Option.some_inj.mp hopen).symm
  rw [setDirty_true_eq] at hc1
  have hdirty : c1.dirty = c.dirty + 1 := by rw [hc1]
  have hopened : c1.opened = true := by rw [hc1]
  have hgate : (!c1.opened || c1.dirty == 0) = false := by
    rw [hdirty, hopened]
    simp
  have hflush : ∀ r, Cache.flush c1 = some r → r.2 = true ∧ r.1.dirty = 0 := by
    intro r hr
    rw [Cache.flush, hgate] at hr
    simp only [Bool.false_eq_true, if_false] at hr
    rcases h0 : c1.bm.getMetaBlockID with _ | r0
    · rw [h0] at hr
      cases hr
    · rw [h0] at hr
      have hr1 : (BlockManager.markChainedBlocksAsFree (r0.2.max_block + 1)
          r0.2 (BlockManager.nextBlockIdOf r0.2 r0.1)).bind (fun r1 =>
            (MetadataWriter.run r1.1 r0.1 [c1.mm.writeMetadata]).bind fun r2 =>
              (BlockManager.flushBM r2.1).map fun r3 =>
                ({ c1 with bm := r3.1, dirty := 0 }, true)) = some r := hr
      rcases h1 : BlockManager.markChainedBlocksAsFree (r0.2.max_block + 1)
          r0.2 (BlockManager.nextBlockIdOf r0.2 r0.1) with _ | r1
      · rw [h1] at hr1
        cases hr1
      · rw [h1] at hr1
        have hr2 : ((MetadataWriter.run r1.1 r0.1 [c1.mm.writeMetadata]).bind
            fun r2 => (BlockManager.flushBM r2.1).map fun r3 =>
              ({ c1 with bm := r3.1, dirty := 0 }, true)) = some r := hr1
        rcases h2 : MetadataWriter.run r1.1 r0.1 [c1.mm.writeMetadata]
            with _ | r2
        · rw [h2] at hr2
          cases hr2
        · rw [h2] at hr2
          have hr3 : ((BlockManager.flushBM r2.1).map fun r3 =>
              ({ c1 with bm := r3.1, dirty := 0 }, true)) = some r := hr2
          rcases h3 : BlockManager.flushBM r2.1 with _ | r3
          · rw [h3] at hr3
            cases hr3
          · rw [h3] at hr3
            simp only [Option.map_some'] at hr3
            rw [← Option.some_inj.mp hr3]
            exact ⟨rfl, rfl⟩
  refine ⟨hdirty, hopened, fun hcon => ?_, hflush⟩
  have := (hflush _ hcon).1
  cases this

/-- Concrete cache for the C10 witness. -/
def c10c : Cache := { block_size := 24, bm := { block_size := 24 } }

/-- The state after opening `c10c` on a fresh backing file. -/
def c10c1 : Cache :=
  (Cache.openCache c10c [97] false { block_size := 24 } {}).getD c10c

/-- Witness for C10 at a concrete open-then-flush run. -/
theorem C10_open_sets_dirty_witness :
    c10c1.dirty = c10c.dirty + 1 ∧ c10c1.opened = true ∧
      Cache.flush c10c1 ≠ some (c10c1, false) ∧
      ∀ r, Cache.flush c10c1 = some r → r.2 = true ∧ r.1.dirty = 0 :=
  C10_open_sets_dirty c10c [97] false { block_size := 24 } {} c10c1
    (by rfl) (by decide) (by rfl)

/-! ## Claim C2 -/

/-- The state after one `store_block` from an empty open cache of capacity
10, followed by an overwrite of the same `(path, index)` with new bytes. -/
def c2cex : Cache :=
  (runOps headChk (initCache 1 10)
    [Op.storeBlock [102] 0 [7], Op.storeBlock [102] 0 [8]]).getD
    (initCache 1 10)

/-- Claim C2, counterexample: overwriting an already-registered
`(path, index)` with new bytes rewrites the block's bytes but leaves the
`BlockInfo` recorded at first registration — checksum 7 of the old bytes —
in place, so after the overwrite the recorded checksum is not the checksum
(8) computed over the new `data`. -/
theorem C2_checksum_counterexample :
    runOps headChk (initCache 1 10)
        [Op.storeBlock [102] 0 [7], Op.storeBlock [102] 0 [8]] =
      some c2cex ∧
    c2cex.bm.blockBytes 0 = [8] ∧
    c2cex.mm.getBlockInfo [102] 0 = some ⟨0, 0, 7⟩ ∧
    headChk [8] = 8 ∧ ¬(7 : Nat) = 8 := by
  refine ⟨rfl, rfl, rfl, rfl, by decide⟩

/-- Claim C2 (amended): when `(path, index)` is previously unknown,
`Cache::StoreBlock` records the checksum computed over `data` in the new
`BlockInfo` and the stored bytes become `data`; when `(path, index)` is
already registered, the stored bytes become `data` but the `BlockInfo`
recorded at first registration — including its checksum — is left
unchanged. -/
theorem C2_checksum_amended (chk : List Nat → Nat) (c c' : Cache) (p : Path)
    (i : Int) (data : List Nat) (h : Inv c)
    (hrun : Cache.storeBlock chk c p i data = some c') :
    (c.mm.getBlockId p i = INVALID_BLOCK_ID →
      ∃ bid, alLookup c'.mm.block_mapping (p, i) = some bid ∧
        c'.mm.getBlockInfo p bid = some ⟨i, bid, chk data⟩ ∧
        c'.bm.blockBytes bid = data) ∧
    (∀ bid info, alLookup c.mm.block_mapping (p, i) = some bid →
      c.mm.getBlockInfo p bid = some info →
      c'.mm.getBlockInfo p bid = some info ∧
        c'.bm.blockBytes bid = data) := by
  obtain ⟨hm, hlen⟩ := h
  by_cases hb : c.mm.getBlockId p i = INVALID_BLOCK_ID
  · -- unknown (path, index): a fresh block is allocated and registered with
    -- the checksum of `data`, and survives the eviction loop
    obtain ⟨hA1, hA2, hA3, hA4, hA5⟩ := allocBlock_fresh hm
    have hnone : alLookup c.mm.block_mapping (p, i) = none := by
      rcases hq : alLookup c.mm.block_mapping (p, i) with _ | v
      · rfl
      · exfalso
        have hval : c.mm.getBlockId p i = v := by
          rw [MetadataManager.getBlockId, hq]
        rcases hm.bmapLru (p, i) v hq with hmem | hfr
        · have h0 := (hm.lruValid v hmem).1
          have h1 : v = INVALID_BLOCK_ID := by rw [← hval, hb]
          rw [INVALID_BLOCK_ID] at h1
          omega
        · cases hfr
    have hreg := mInv_register hA1 p i (chk data) hnone hA2 hA3 hA4 hA5
    have hent := registerBlock_entry c.mm p i c.bm.allocBlock.1 (chk data)
    have hrun2 : (Cache.evictLRUBlockIfNeeded
        (c.mm.registerBlock p i c.bm.allocBlock.1 (chk data))
        c.bm.allocBlock.2).bind
          (fun r => (r.2.storeBlock c.bm.allocBlock.1 data).map fun bm2 =>
            Cache.setDirty
              { c with mm := r.1.updateLRUOrder c.bm.allocBlock.1, bm := bm2 }
              true) = some c' := by
      rw [← storeBlock_new_eq chk c p i data hb]
      exact hrun
    rcases hev : Cache.evictLRUBlockIfNeeded
        (c.mm.registerBlock p i c.bm.allocBlock.1 (chk data))
        c.bm.allocBlock.2 with _ | r0
    · rw [hev] at hrun2
      cases hrun2
    · rw [hev] at hrun2
      have hev2 : Cache.evictLoop
          (c.mm.registerBlock p i c.bm.allocBlock.1 (chk data)).lru_map.length
          (c.mm.registerBlock p i c.bm.allocBlock.1 (chk data))
          c.bm.allocBlock.2 = some r0 := hev
      have hkeep := evictLoop_keeps_entry _ hreg hev2 hent.1 hent.2
      have hrun3 : ((r0.2.storeBlock c.bm.allocBlock.1 data).map fun bm2 =>
          Cache.setDirty
            { c with mm := r0.1.updateLRUOrder c.bm.allocBlock.1, bm := bm2 }
            true) = some c' := hrun2
      rcases hst : r0.2.storeBlock c.bm.allocBlock.1 data with _ | bm2
      · rw [hst] at hrun3
        cases hrun3
      · rw [hst] at hrun3
        simp only [Option.map_some'] at hrun3
        have hc' : c' = Cache.setDirty
            { c with mm := r0.1.updateLRUOrder c.bm.allocBlock.1, bm := bm2 }
            true := (Option.some_inj.mp hrun3).symm
        have hbm2 := storeBlockBM_eq_some hst
        constructor
        · intro _
          refine ⟨c.bm.allocBlock.1, ?_, ?_, ?_⟩
          · rw [hc', (setDirty_fields _ true).1]
            show alLookup
                (r0.1.updateLRUOrder c.bm.allocBlock.1).block_mapping (p, i) =
              some c.bm.allocBlock.1
            rw [(updateLRU_fields r0.1 c.bm.allocBlock.1).2.2.1]
            exact hkeep.1
          · rw [hc', (setDirty_fields _ true).1]
            show (r0.1.updateLRUOrder c.bm.allocBlock.1).getBlockInfo p
                c.bm.allocBlock.1 = some ⟨i, c.bm.allocBlock.1, chk data⟩
            rw [getBlockInfo_congr
              (updateLRU_fields r0.1 c.bm.allocBlock.1).2.2.2.2.2 p
              c.bm.allocBlock.1]
            exact hkeep.2
          · rw [hc', (setDirty_fields _ true).2]
            show bm2.blockBytes c.bm.allocBlock.1 = data
            rw [hbm2]
            exact blockBytes_alInsert r0.2 c.bm.allocBlock.1 data
        · intro bid info hq _
          rw [hnone] at hq
          cases hq
  · -- known (path, index): only the LRU order and the block bytes change
    have hrun3 : ((c.bm.storeBlock (c.mm.getBlockId p i) data).map fun bm2 =>
        Cache.setDirty
          { c with mm := c.mm.updateLRUOrder (c.mm.getBlockId p i), bm := bm2 }
          true) = some c' := by
      rw [← storeBlock_known_eq chk c p i data hb]
      exact hrun
    rcases hst : c.bm.storeBlock (c.mm.getBlockId p i) data with _ | bm2
    · rw [hst] at hrun3
      cases hrun3
    · rw [hst] at hrun3
      simp only [Option.map_some'] at hrun3
      have hc' : c' = Cache.setDirty
          { c with mm := c.mm.updateLRUOrder (c.mm.getBlockId p i), bm := bm2 }
          true := (Option.some_inj.mp hrun3).symm
      have hbm2 := storeBlockBM_eq_some hst
      constructor
      · intro habs
        exact absurd habs hb
      · intro bid info hq hinfo
        have hbid : c.mm.getBlockId p i = bid := by
          rw [MetadataManager.getBlockId, hq]
        constructor
        · rw [hc', (setDirty_fields _ true).1]
          show (c.mm.updateLRUOrder (c.mm.getBlockId p i)).getBlockInfo p bid =
            some info
          rw [getBlockInfo_congr
            (updateLRU_fields c.mm (c.mm.getBlockId p i)).2.2.2.2.2 p bid]
          exact hinfo
        · rw [hc', (setDirty_fields _ true).2]
          show bm2.blockBytes bid = data
          rw [hbm2, ← hbid]
          exact blockBytes_alInsert c.bm (c.mm.getBlockId p i) data

/-- Concrete input for the C2 witness: an empty open cache of capacity 10. -/
def c2wc : Cache := initCache 1 10

/-- The state after storing block `([102], 0)` with bytes `[7]` in `c2wc`. -/
def c2wc1 : Cache :=
  (Cache.storeBlock headChk c2wc [102] 0 [7]).getD c2wc

/-- Witness for the amended C2 at a concrete store of a fresh key. -/
theorem C2_checksum_amended_witness :
    Inv c2wc ∧
      Cache.storeBlock headChk c2wc [102] 0 [7] = some c2wc1 ∧
      c2wc.mm.getBlockId [102] 0 = INVALID_BLOCK_ID ∧
      (∃ bid, alLookup c2wc1.mm.block_mapping ([102], 0) = some bid ∧
        c2wc1.mm.getBlockInfo [102] bid = some ⟨0, bid, headChk [7]⟩ ∧
        c2wc1.bm.blockBytes bid = [7]) :=
  ⟨inv_initCache 1 10, rfl, rfl,
    (C2_checksum_amended headChk c2wc c2wc1 [102] 0 [7]
        (inv_initCache 1 10) rfl).1 rfl⟩

/-! ## Claim C3 -/

/-- Claim C3: corruption recovery in `Cache::RetrieveBlock`.  If `(path,
index)` is registered with block `bid` and the recorded checksum differs
from the checksum of the bytes read from the store, the call reports a miss
(`false`), frees the block into the store's free set, removes the entry from
`block_mapping`, `reverse_block_mapping`, the file's `blocks` map and both
LRU structures, and sets the dirty flag.  If `(path, index)` has no
registered block the call returns `false` with the cache unchanged. -/
theorem C3_corruption_recovery (chk : List Nat → Nat) (c : Cache) (p : Path)
    (i : Int) :
    (∀ bid info out, MInv c.mm c.bm none →
      (c.mm.files_metadata.map Prod.fst).Nodup →
      (∀ fm, alLookup c.mm.files_metadata p = some fm →
        (fm.blocks.map Prod.fst).Nodup) →
      alLookup c.mm.block_mapping (p, i) = some bid →
      c.mm.getBlockInfo p bid = some info →
      info.checksum ≠ chk (c.bm.blockBytes bid) →
      Cache.retrieveBlock chk c p i = some out →
      out.2 = false ∧ bid ∈ out.1.bm.free_list ∧
        alLookup out.1.mm.block_mapping (p, i) = none ∧
        alLookup out.1.mm.reverse_block_mapping bid = none ∧
        out.1.mm.getBlockInfo p bid = none ∧
        bid ∉ out.1.mm.lru_list ∧ bid ∉ out.1.mm.lru_map ∧
        out.1.dirty ≠ 0) ∧
    (alLookup c.mm.block_mapping (p, i) = none →
      Cache.retrieveBlock chk c p i = some (c, false)) := by
  constructor
  · intro bid info out hm hfnd hbnd hmap hinfo hbad hrun
    have hgb : c.mm.getBlockId p i = bid := by
      rw [MetadataManager.getBlockId, hmap]
    have hmem : bid ∈ c.mm.lru_list := by
      rcases hm.bmapLru (p, i) bid hmap with h1 | h1
      · exact h1
      · cases h1
    have hv := hm.lruValid bid hmem
    have hne : ¬(bid = INVALID_BLOCK_ID) := by
      rw [INVALID_BLOCK_ID]
      omega
    have hval : c.bm.validateBlockId bid = true := by
      simp only [BlockManager.validateBlockId, INVALID_BLOCK_ID,
        Bool.and_eq_true, Bool.not_eq_true', beq_eq_false_iff_ne, ne_eq,
        decide_eq_false_iff_not, decide_eq_true_eq]
      omega
    have hretr : c.bm.retrieveBlock bid = some (c.bm.blockBytes bid) := by
      rw [BlockManager.retrieveBlock, if_pos hval]
    have hmf : c.bm.markBlockAsFree bid =
        some { c.bm with free_list := fsInsert bid c.bm.free_list } := by
      rw [BlockManager.markBlockAsFree, if_pos hval]
    rw [Cache.retrieveBlock, hgb, if_neg hne, hinfo] at hrun
    have hrun2 : ((c.bm.retrieveBlock bid).bind fun bytes =>
        if info.checksum ≠ chk bytes then
          (c.bm.markBlockAsFree bid).map fun bm1 =>
            (Cache.setDirty
              { c with
                mm := (c.mm.updateLRUOrder bid).unregisterBlock bid
                bm := bm1 } true, false)
        else
          some (Cache.setDirty
            { c with mm := c.mm.updateLRUOrder bid, bm := c.bm } true,
            true)) = some out := hrun
    rw [hretr] at hrun2
    have hrun3 : (if info.checksum ≠ chk (c.bm.blockBytes bid) then
        (c.bm.markBlockAsFree bid).map fun bm1 =>
          (Cache.setDirty
            { c with
              mm := (c.mm.updateLRUOrder bid).unregisterBlock bid
              bm := bm1 } true, false)
      else
        some (Cache.setDirty
          { c with mm := c.mm.updateLRUOrder bid, bm := c.bm } true,
          true)) = some out := hrun2
    rw [if_pos hbad, hmf] at hrun3
    simp only [Option.map_some'] at hrun3
    have hout : out = (Cache.setDirty
        { c with
          mm := (c.mm.updateLRUOrder bid).unregisterBlock bid
          bm := { c.bm with free_list := fsInsert bid c.bm.free_list } }
        true, false) := (Option.some_inj.mp hrun3).symm
    obtain ⟨fmp, hfp, hbi⟩ := getBlockInfo_eq_some hinfo
    have hrm1 : alLookup
        (c.mm.updateLRUOrder bid).reverse_block_mapping bid = some (p, i) :=
      hm.pairInv (p, i) bid hmap
    have hfp1 : alLookup (c.mm.updateLRUOrder bid).files_metadata
        ((p, i) : BlockKey).1 = some fmp := hfp
    have hmapContains : c.mm.lru_map.contains bid = true := by
      rw [intList_contains_iff, hm.lruMapEq]
      exact hmem
    have hmap1 : (c.mm.updateLRUOrder bid).lru_map =
        bid :: c.mm.lru_map.erase bid := (updateLRU_fields c.mm bid).2.1
    have hlist1 : (c.mm.updateLRUOrder bid).lru_list =
        bid :: c.mm.lru_list.erase bid := by
      rw [(updateLRU_fields c.mm bid).1, if_pos hmapContains]
    have hcont1 : (c.mm.updateLRUOrder bid).lru_map.contains bid = true := by
      rw [intList_contains_iff, hmap1]
      exact List.mem_cons_self bid _
    refine ⟨by rw [hout], ?_, ?_, ?_, ?_, ?_, ?_, ?_⟩
    · rw [hout]
      show bid ∈ (Cache.setDirty _ true).bm.free_list
      rw [(setDirty_fields _ true).2]
      exact (mem_fsInsert bid bid c.bm.free_list).mpr (Or.inl rfl)
    · rw [hout]
      show alLookup (Cache.setDirty _ true).mm.block_mapping (p, i) = none
      rw [(setDirty_fields _ true).1]
      show alLookup
        ((c.mm.updateLRUOrder bid).unregisterBlock bid).block_mapping
        (p, i) = none
      rw [unregisterBlock_bmap, unregisterMaps_bmap_of_some hrm1,
        (updateLRU_fields c.mm bid).2.2.1]
      exact alLookup_alErase_self (p, i) hm.bmapKeysNodup
    · rw [hout]
      show alLookup (Cache.setDirty _ true).mm.reverse_block_mapping bid =
        none
      rw [(setDirty_fields _ true).1]
      show alLookup
        ((c.mm.updateLRUOrder bid).unregisterBlock bid).reverse_block_mapping
        bid = none
      rw [unregisterBlock_rmap, unregisterMaps_rmap_of_some hrm1,
        (updateLRU_fields c.mm bid).2.2.2.1]
      exact alLookup_alErase_self bid hm.rmapKeysNodup
    · rw [hout]
      show (Cache.setDirty _ true).mm.getBlockInfo p bid = none
      rw [(setDirty_fields _ true).1]
      show ((c.mm.updateLRUOrder bid).unregisterBlock bid).getBlockInfo p
        bid = none
      rw [getBlockInfo_congr
        (unregisterBlock_files (c.mm.updateLRUOrder bid) bid) p bid,
        MetadataManager.getBlockInfo,
        unregisterMaps_files_some_some hrm1 hfp1]
      by_cases he : (alErase bid fmp.blocks).isEmpty = true
      · rw [if_pos he]
        have h1 : alLookup
            (alErase ((p, i) : BlockKey).1
              (c.mm.updateLRUOrder bid).files_metadata) p = none := by
          show alLookup
            (alErase p (c.mm.updateLRUOrder bid).files_metadata) p = none
          exact alLookup_alErase_self p hfnd
        rw [h1]
      · rw [if_neg he]
        have h1 : alLookup
            (omUpsert pathLt ((p, i) : BlockKey).1
              { fmp with blocks := alErase bid fmp.blocks }
              (c.mm.updateLRUOrder bid).files_metadata) p =
            some { fmp with blocks := alErase bid fmp.blocks } := by
          show alLookup
            (omUpsert pathLt p { fmp with blocks := alErase bid fmp.blocks }
              (c.mm.updateLRUOrder bid).files_metadata) p = _
          exact alLookup_omUpsert_self pathLt _ p _
        rw [h1]
        exact alLookup_alErase_self bid (hbnd fmp hfp)
    · rw [hout]
      show bid ∉ (Cache.setDirty _ true).mm.lru_list
      rw [(setDirty_fields _ true).1]
      show bid ∉
        ((c.mm.updateLRUOrder bid).unregisterBlock bid).lru_list
      rw [unregisterBlock_lru_list, if_pos hcont1, hlist1,
        List.erase_cons_head]
      intro hc
      have := ((hm.lruNodup).mem_erase_iff).mp hc
      exact this.1 rfl
    · rw [hout]
      show bid ∉ (Cache.setDirty _ true).mm.lru_map
      rw [(setDirty_fields _ true).1]
      show bid ∉
        ((c.mm.updateLRUOrder bid).unregisterBlock bid).lru_map
      rw [unregisterBlock_lru_map, if_pos hcont1, hmap1,
        List.erase_cons_head]
      intro hc
      have hnd : c.mm.lru_map.Nodup := by
        rw [hm.lruMapEq]
        exact hm.lruNodup
      have := (hnd.mem_erase_iff).mp hc
      exact this.1 rfl
    · rw [hout]
      show (Cache.setDirty _ true).dirty ≠ 0
      rw [setDirty_true_eq]
      show c.dirty + 1 ≠ 0
      omega
  · intro hq
    have hgb : c.mm.getBlockId p i = INVALID_BLOCK_ID := by
      rw [MetadataManager.getBlockId, hq]
    rw [Cache.retrieveBlock, hgb, if_pos rfl]

/-- A cache holding one block whose recorded checksum (7, from the store-time
checksum function) disagrees with a different retrieval-time checksum
function. -/
def c3s : Cache :=
  (runOps headChk (initCache 1 10) [Op.storeBlock [102] 0 [7]]).getD
    (initCache 1 10)

/-- A checksum function disagreeing with `headChk` on every buffer. -/
def badChk : List Nat → Nat := fun l => l.headD 0 + 1

/-- The result of retrieving the corrupt block of `c3s`. -/
def c3out : Cache × Bool :=
  (Cache.retrieveBlock badChk c3s [102] 0).getD (c3s, true)

/-- Witness for C3 at a concrete corrupt block and at a concrete missing
key. -/
theorem C3_corruption_recovery_witness :
    (Cache.retrieveBlock badChk c3s [102] 0 = some c3out ∧
      c3out.2 = false ∧ (0 : Int) ∈ c3out.1.bm.free_list ∧
      alLookup c3out.1.mm.block_mapping ([102], 0) = none ∧
      alLookup c3out.1.mm.reverse_block_mapping 0 = none ∧
      c3out.1.mm.getBlockInfo [102] 0 = none ∧
      (0 : Int) ∉ c3out.1.mm.lru_list ∧ (0 : Int) ∉ c3out.1.mm.lru_map ∧
      c3out.1.dirty ≠ 0) ∧
    (alLookup c3s.mm.block_mapping ([103], 0) = none ∧
      Cache.retrieveBlock badChk c3s [103] 0 = some (c3s, false)) :=
  ⟨⟨rfl,
    (C3_corruption_recovery badChk c3s [102] 0).1 0 ⟨0, 0, 7⟩ c3out
      (inv_runOps [Op.storeBlock [102] 0 [7]]
        (inv_initCache 1 10) rfl).1
      (by decide)
      (fun fm hfm => by
        have h3 : alLookup c3s.mm.files_metadata [102] =
            some { blocks :=
              [((0 : Int), (⟨0, 0, 7⟩ : FileMetadataBlockInfo))] } := rfl
        rw [h3] at hfm
        rw [← Option.some_inj.mp hfm]
        decide)
      rfl rfl (by decide) rfl⟩,
    rfl, (C3_corruption_recovery badChk c3s [103] 0).2 rfl⟩

/-! ## Claim C8 -/

theorem init_some_eq (c : Cache) (p : Path) (uLast : Int) (uSize : Nat)
    {md : FileMetadata} (hmd : c.retrieveFileMetadata p = some md) :
    CacheFileHandle.init c p true uLast uSize =
      if (if md.last_modified ≠ uLast then true
          else if uLast = 0 then
            decide (md.file_size ≠ uSize ∨ uSize = 0)
          else false) = true then
        (c.evict p).map fun c1 =>
          (c1.storeFileLastModified p uLast).storeFileSize p uSize
      else some c := by
  rw [CacheFileHandle.init, hmd]
  rfl

/-- Storing a last-modified time and then a size leaves a metadata entry
carrying exactly those two values. -/
theorem storeFileOps_metadata (c2 : Cache) (p : Path) (uLast : Int)
    (uSize : Nat) :
    ∃ fm1, ((c2.storeFileLastModified p uLast).storeFileSize p
        uSize).mm.getFileMetadata p = some fm1 ∧
      fm1.file_size = uSize ∧ fm1.last_modified = uLast := by
  have hL : alLookup
      ((c2.storeFileLastModified p uLast).mm).files_metadata p =
      some { (match alLookup c2.mm.files_metadata p with
              | some fm => fm
              | none => ({} : FileMetadata)) with last_modified := uLast } :=
    alLookup_omUpsert_self pathLt _ p _
  have hS : alLookup
      (((c2.storeFileLastModified p uLast).storeFileSize p
          uSize).mm).files_metadata p =
      some { (match alLookup
                (c2.storeFileLastModified p uLast).mm.files_metadata p with
              | some fm => fm
              | none => ({} : FileMetadata)) with file_size := uSize } :=
    alLookup_omUpsert_self pathLt _ p _
  refine ⟨_, hS, rfl, ?_⟩
  show (match alLookup
          (c2.storeFileLastModified p uLast).mm.files_metadata p with
        | some fm => fm
        | none => ({} : FileMetadata)).last_modified = uLast
  rw [hL]

/-- Claim C8: construction of a caching file handle for a path with a cached
metadata entry and `data_mutable = true` evicts and refreshes the entry iff
the cached `last_modified` differs from the underlying one, or — when the
underlying `last_modified` is the epoch/unknown sentinel — the sizes differ
or the underlying size is 0; otherwise the cache is left unchanged.  On a
change the refreshed entry carries the underlying size and last-modified. -/
theorem C8_freshness_check (c : Cache) (p : Path) (md : FileMetadata)
    (uLast : Int) (uSize : Nat)
    (hmd : c.mm.getFileMetadata p = some md) :
    ((md.last_modified ≠ uLast ∨
        (uLast = 0 ∧ (md.file_size ≠ uSize ∨ uSize = 0))) →
      CacheFileHandle.init c p true uLast uSize =
        (c.evict p).map fun c1 =>
          (c1.storeFileLastModified p uLast).storeFileSize p uSize) ∧
    (¬(md.last_modified ≠ uLast ∨
        (uLast = 0 ∧ (md.file_size ≠ uSize ∨ uSize = 0))) →
      CacheFileHandle.init c p true uLast uSize = some c) ∧
    (∀ c1, CacheFileHandle.init c p true uLast uSize = some c1 →
      (md.last_modified ≠ uLast ∨
        (uLast = 0 ∧ (md.file_size ≠ uSize ∨ uSize = 0))) →
      ∃ fm1, c1.mm.getFileMetadata p = some fm1 ∧
        fm1.file_size = uSize ∧ fm1.last_modified = uLast) := by
  have hret : c.retrieveFileMetadata p = some md := hmd
  have he := init_some_eq c p uLast uSize hret
  by_cases hP : md.last_modified ≠ uLast ∨
      (uLast = 0 ∧ (md.file_size ≠ uSize ∨ uSize = 0))
  · have hbp : (if md.last_modified ≠ uLast then true
        else if uLast = 0 then
          decide (md.file_size ≠ uSize ∨ uSize = 0)
        else false) = true := by
      by_cases h1 : md.last_modified = uLast
      · rcases hP with h | ⟨h2, h3⟩
        · exact absurd h1 h
        · rw [if_neg (fun hc => hc h1), if_pos h2]
          exact decide_eq_true h3
      · rw [if_pos h1]
    have heq : CacheFileHandle.init c p true uLast uSize =
        (c.evict p).map fun c1 =>
          (c1.storeFileLastModified p uLast).storeFileSize p uSize := by
      rw [he, if_pos hbp]
    refine ⟨fun _ => heq, fun hn => absurd hP hn, ?_⟩
    intro c1 hinit _
    rw [heq] at hinit
    rcases hev : c.evict p with _ | c2
    · rw [hev] at hinit
      cases hinit
    · rw [hev] at hinit
      simp only [Option.map_some'] at hinit
      rw [← Option.some_inj.mp hinit]
      exact storeFileOps_metadata c2 p uLast uSize
  · have hbp : (if md.last_modified ≠ uLast then true
        else if uLast = 0 then
          decide (md.file_size ≠ uSize ∨ uSize = 0)
        else false) = false := by
      push_neg at hP
      rw [if_neg (fun hc => hc hP.1)]
      by_cases h2 : uLast = 0
      · rw [if_pos h2]
        apply decide_eq_false
        intro hd
        rcases hd with hd | hd
        · exact hd (hP.2 h2).1
        · exact (hP.2 h2).2 hd
      · rw [if_neg h2]
    have heq : CacheFileHandle.init c p true uLast uSize = some c := by
      rw [he, hbp]
      exact if_neg (by simp)
    refine ⟨fun hp => absurd hp hP, fun _ => heq, ?_⟩
    intro c1 hinit hp
    exact absurd hp hP

/-- A cache with a cached entry for `[102]` of size 5 and last-modified
111. -/
def c8s : Cache :=
  (runOps headChk (initCache 1 10)
    [Op.storeFileSize [102] 5, Op.storeFileLastModified [102] 111]).getD
    (initCache 1 10)

/-- The cache after constructing a handle over `c8s` whose underlying file
reports last-modified 222 and size 7. -/
def c8out : Cache :=
  (CacheFileHandle.init c8s [102] true 222 7).getD c8s

/-- Witness for C8 at a concrete changed file (underlying last-modified 222
differs from the cached 111). -/
theorem C8_freshness_check_witness :
    c8s.mm.getFileMetadata [102] =
      some { file_size := 5, last_modified := 111 } ∧
    CacheFileHandle.init c8s [102] true 222 7 =
      ((Cache.evict c8s [102]).map fun c1 =>
        (c1.storeFileLastModified [102] 222).storeFileSize [102] 7) ∧
    CacheFileHandle.init c8s [102] true 222 7 = some c8out ∧
    (∃ fm1, c8out.mm.getFileMetadata [102] = some fm1 ∧
      fm1.file_size = 7 ∧ fm1.last_modified = 222) :=
  ⟨rfl,
    (C8_freshness_check c8s [102] { file_size := 5, last_modified := 111 }
        222 7 rfl).1 (Or.inl (by decide)),
    rfl,
    (C8_freshness_check c8s [102] { file_size := 5, last_modified := 111 }
        222 7 rfl).2.2 c8out rfl (Or.inl (by decide))⟩

/-! ## Claim C6 -/

theorem omInsert_all_gt {α β : Type} [DecidableEq α] (lt : α → α → Bool)
    (k : α) (v : β) :
    ∀ l : List (α × β), (∀ e ∈ l, lt k e.1 = false ∧ ¬(k = e.1)) →
    omInsert lt k v l = l ++ [(k, v)]
  | [], _ => rfl
  | e :: rest, h => by
    have he := h e (List.mem_cons_self e rest)
    rw [omInsert, if_neg (by simp [he.1]), if_neg he.2,
      omInsert_all_gt lt k v rest
        (fun e' he' => h e' (List.mem_cons_of_mem e he'))]
    rfl

theorem omUpsert_all_gt {α β : Type} [DecidableEq α] (lt : α → α → Bool)
    (k : α) (v : β) (l : List (α × β))
    (h : ∀ e ∈ l, lt k e.1 = false ∧ ¬(k = e.1)) :
    omUpsert lt k v l = l ++ [(k, v)] := by
  have hn : alLookup l k = none := by
    rw [alLookup_eq_none_iff]
    intro hmem
    rcases List.mem_map.mp hmem with ⟨e, he, hk⟩
    exact (h e he).2 hk.symm
  rw [omUpsert, hn]
  exact omInsert_all_gt lt k v l h

/-- The block-entry loop of `ReadV1` parses the serialized entries of a
key-sorted blocks map back, appending them behind the accumulator. -/
theorem readBlocksLoop_append :
    ∀ (l acc : List (Int × FileMetadataBlockInfo)) (rest : List Nat),
    (∀ e ∈ l, blockEntryOk e) →
    ((acc.map Prod.fst ++ l.map Prod.fst).Pairwise (· < ·)) →
    FileMetadata.readBlocksLoop l.length
      (concatAll (l.map fun e =>
        i64LE e.2.block_index ++ i64LE e.2.block_id ++
          u64LE e.2.checksum) ++ rest) acc = some (acc ++ l, rest)
  | [], acc, rest, _, _ => by
    simp [FileMetadata.readBlocksLoop, concatAll]
  | e :: l, acc, rest, hok, hsort => by
    obtain ⟨hid, hi1, hi2, hb1, hb2, hck⟩ := hok e (List.mem_cons_self e l)
    have hstream : concatAll ((e :: l).map fun e =>
        i64LE e.2.block_index ++ i64LE e.2.block_id ++
          u64LE e.2.checksum) ++ rest =
        i64LE e.2.block_index ++ (i64LE e.2.block_id ++
          (u64LE e.2.checksum ++
            (concatAll (l.map fun e =>
              i64LE e.2.block_index ++ i64LE e.2.block_id ++
                u64LE e.2.checksum) ++ rest))) := by
      simp [concatAll, List.append_assoc]
    rw [List.length_cons, FileMetadata.readBlocksLoop, hstream,
      rdI64_append hi1 hi2]
    simp only [Option.some_bind]
    rw [rdI64_append hb1 hb2]
    simp only [Option.some_bind]
    rw [rdU64_append_of_lt hck]
    simp only [Option.some_bind]
    have hacc : ∀ e' ∈ acc, intLt e.1 e'.1 = false ∧ ¬(e.1 = e'.1) := by
      intro e' he'
      have hlt : e'.1 < e.1 := by
        have h1 := (List.pairwise_append.mp hsort).2.2
        exact h1 e'.1 (List.mem_map_of_mem Prod.fst he')
          e.1 (by rw [List.map_cons]; exact List.mem_cons_self _ _)
      constructor
      · simp only [intLt, decide_eq_false_iff_not]
        omega
      · omega
    have hup : omUpsert intLt e.2.block_id
        (⟨e.2.block_index, e.2.block_id, e.2.checksum⟩ :
          FileMetadataBlockInfo) acc = acc ++ [e] := by
      have h1 : (⟨e.2.block_index, e.2.block_id, e.2.checksum⟩ :
          FileMetadataBlockInfo) = e.2 := rfl
      rw [h1, ← hid, omUpsert_all_gt intLt e.1 e.2 acc hacc]
    rw [hup]
    have hsort' : ((acc ++ [e]).map Prod.fst ++ l.map Prod.fst).Pairwise
        (· < ·) := by
      rw [List.map_append, List.append_assoc]
      exact hsort
    rw [readBlocksLoop_append l (acc ++ [e]) rest
      (fun e' he' => hok e' (List.mem_cons_of_mem e he')) hsort']
    simp

theorem readV1_writeV1 (fm : FileMetadata) (rest : List Nat)
    (hok : ∀ e ∈ fm.blocks, blockEntryOk e)
    (hsort : (fm.blocks.map Prod.fst).Pairwise (· < ·))
    (hfs : fm.file_size < 2 ^ 64) (hlen : fm.blocks.length < 2 ^ 32) :
    FileMetadata.readV1 (fm.writeV1Bytes ++ rest) =
      some ({ file_size := fm.file_size, blocks := fm.blocks,
              last_modified_deprecated := 0, last_modified := 0 },
        rest) := by
  rw [FileMetadata.readV1, FileMetadata.writeV1Bytes]
  rw [List.append_assoc, List.append_assoc]
  rw [rdU64_append_of_lt hfs]
  simp only [Option.some_bind]
  rw [rdU32_append_of_lt hlen]
  simp only [Option.some_bind]
  rw [readBlocksLoop_append fm.blocks [] rest hok (by simpa using hsort)]
  simp

theorem readV2_writeV2 (fm : FileMetadata) (rest : List Nat)
    (hok : ∀ e ∈ fm.blocks, blockEntryOk e)
    (hsort : (fm.blocks.map Prod.fst).Pairwise (· < ·))
    (hfs : fm.file_size < 2 ^ 64) (hlen : fm.blocks.length < 2 ^ 32)
    (hd1 : -(2 ^ 63) ≤ fm.last_modified_deprecated)
    (hd2 : fm.last_modified_deprecated < 2 ^ 63) :
    FileMetadata.readV2 (fm.writeV2Bytes ++ rest) =
      some ({ file_size := fm.file_size, blocks := fm.blocks,
              last_modified_deprecated := fm.last_modified_deprecated,
              last_modified := fromTimeT fm.last_modified_deprecated },
        rest) := by
  rw [FileMetadata.readV2, FileMetadata.writeV2Bytes, List.append_assoc,
    readV1_writeV1 fm (i64LE fm.last_modified_deprecated ++ rest)
      hok hsort hfs hlen]
  simp only [Option.some_bind]
  rw [rdI64_append hd1 hd2]
  simp only [Option.map_some']
  by_cases hz : fm.last_modified_deprecated = 0
  · simp [hz, fromTimeT]
  · simp [hz]

theorem readV3_writeBytes (fm : FileMetadata) (rest : List Nat)
    (hok : ∀ e ∈ fm.blocks, blockEntryOk e)
    (hsort : (fm.blocks.map Prod.fst).Pairwise (· < ·))
    (hfs : fm.file_size < 2 ^ 64) (hlen : fm.blocks.length < 2 ^ 32)
    (hd1 : -(2 ^ 63) ≤ fm.last_modified_deprecated)
    (hd2 : fm.last_modified_deprecated < 2 ^ 63)
    (hl1 : -(2 ^ 63) ≤ fm.last_modified)
    (hl2 : fm.last_modified < 2 ^ 63) :
    FileMetadata.readV3 (fm.writeBytes ++ rest) = some (fm, rest) := by
  rw [FileMetadata.readV3]
  have hw : fm.writeBytes ++ rest =
      fm.writeV2Bytes ++ (i64LE fm.last_modified ++ rest) := by
    simp [FileMetadata.writeBytes, FileMetadata.writeV2Bytes,
      FileMetadata.writeV1Bytes, List.append_assoc]
  rw [hw, readV2_writeV2 fm (i64LE fm.last_modified ++ rest)
    hok hsort hfs hlen hd1 hd2]
  simp only [Option.some_bind]
  rw [rdI64_append hl1 hl2]
  rfl

/-- Claim C6: versioned-read compatibility.  Reading a v1 stream at version
1 yields the epoch/unknown `last_modified` sentinel (0); reading a v2 stream
at version 2 promotes the legacy `time_t` through `Timestamp::FromTimeT`
(which also maps the legacy 0 to the sentinel); reading a v3 stream at
version 3 restores the native microsecond timestamp exactly; every version
above 3 is rejected. -/
theorem C6_versioned_reads (fm : FileMetadata) (rest : List Nat)
    (h : fm.WF) :
    FileMetadata.readBytes 1 (fm.writeV1Bytes ++ rest) =
      some ({ file_size := fm.file_size, blocks := fm.blocks,
              last_modified_deprecated := 0, last_modified := 0 },
        rest) ∧
    FileMetadata.readBytes 2 (fm.writeV2Bytes ++ rest) =
      some ({ file_size := fm.file_size, blocks := fm.blocks,
              last_modified_deprecated := fm.last_modified_deprecated,
              last_modified := fromTimeT fm.last_modified_deprecated },
        rest) ∧
    FileMetadata.readBytes 3 (fm.writeBytes ++ rest) = some (fm, rest) ∧
    (∀ v s, 3 < v → FileMetadata.readBytes v s = none) := by
  obtain ⟨hok, hsort, hfs, hlen, hd1, hd2, hl1, hl2⟩ := h
  refine ⟨readV1_writeV1 fm rest hok hsort hfs hlen,
    readV2_writeV2 fm rest hok hsort hfs hlen hd1 hd2,
    readV3_writeBytes fm rest hok hsort hfs hlen hd1 hd2 hl1 hl2, ?_⟩
  intro v s hv
  obtain ⟨k, rfl⟩ : ∃ k, v = k + 4 := ⟨v - 4, by omega⟩
  rfl

/-- A concrete well-formed `FileMetadata` for the C6 witness. -/
def c6fm : FileMetadata :=
  { file_size := 5
    blocks := [(0, ⟨0, 0, 7⟩), (2, ⟨1, 2, 9⟩)]
    last_modified_deprecated := 3
    last_modified := 123 }

/-- Witness for C6 at a concrete two-block metadata value. -/
theorem C6_versioned_reads_witness :
    c6fm.WF ∧
      FileMetadata.readBytes 1 (c6fm.writeV1Bytes ++ [5]) =
        some ({ file_size := 5, blocks := c6fm.blocks,
                last_modified_deprecated := 0, last_modified := 0 },
          [5]) ∧
      FileMetadata.readBytes 2 (c6fm.writeV2Bytes ++ [5]) =
        some ({ file_size := 5, blocks := c6fm.blocks,
                last_modified_deprecated := 3,
                last_modified := fromTimeT 3 }, [5]) ∧
      FileMetadata.readBytes 3 (c6fm.writeBytes ++ [5]) =
        some (c6fm, [5]) ∧
      FileMetadata.readBytes 4 [0] = none :=
  ⟨by decide, (C6_versioned_reads c6fm [5] (by decide)).1,
    (C6_versioned_reads c6fm [5] (by decide)).2.1,
    (C6_versioned_reads c6fm [5] (by decide)).2.2.1,
    (C6_versioned_reads c6fm [5] (by decide)).2.2.2 4 [0] (by decide)⟩

/-! ## Claim C5 -/

theorem pathLt_asymm : ∀ (a b : Path), pathLt a b = true →
    pathLt b a = false ∧ ¬(b = a)
  | [], [] => by
    intro h
    simp [pathLt] at h
  | [], _ :: _ => by
    intro _
    exact ⟨rfl, by simp⟩
  | _ :: _, [] => by
    intro h
    simp [pathLt] at h
  | a :: as, b :: bs => by
    intro h
    rw [pathLt] at h
    by_cases h1 : a < b
    · constructor
      · rw [pathLt, if_neg (by omega), if_pos h1]
      · intro he
        injection he with h2 h3
        omega
    · rw [if_neg h1] at h
      by_cases h2 : b < a
      · rw [if_pos h2] at h
        cases h
      · rw [if_neg h2] at h
        obtain ⟨ih1, ih2⟩ := pathLt_asymm as bs h
        constructor
        · rw [pathLt, if_neg h2, if_neg h1]
          exact ih1
        · intro he
          injection he with h3 h4
          exact ih2 h4

/-- Sequentially applying a list of `unordered_map` insertions. -/
def applyAll {κ ν : Type} [DecidableEq κ] (ins : List (κ × ν))
    (m : List (κ × ν)) : List (κ × ν) :=
  ins.foldl (fun m e => alInsert e.1 e.2 m) m

theorem applyAll_append {κ ν : Type} [DecidableEq κ] (a b : List (κ × ν))
    (m : List (κ × ν)) : applyAll (a ++ b) m = applyAll b (applyAll a m) := by
  rw [applyAll, applyAll, applyAll, List.foldl_append]

theorem alLookup_applyAll_not_mem {κ ν : Type} [DecidableEq κ] :
    ∀ (ins : List (κ × ν)) (m : List (κ × ν)) (k : κ),
    k ∉ ins.map Prod.fst → alLookup (applyAll ins m) k = alLookup m k
  | [], _, _, _ => rfl
  | e :: ins, m, k, h => by
    have h1 : k ∉ ins.map Prod.fst := by
      intro hm
      exact h (by rw [List.map_cons]; exact List.mem_cons_of_mem _ hm)
    have h2 : ¬(k = e.1) := by
      intro hm
      exact h (by rw [List.map_cons, hm]; exact List.mem_cons_self _ _)
    show alLookup (applyAll ins (alInsert e.1 e.2 m)) k = alLookup m k
    rw [alLookup_applyAll_not_mem ins _ k h1]
    exact alLookup_alInsert_ne m e.1 k e.2 h2

theorem alLookup_applyAll_last {κ ν : Type} [DecidableEq κ]
    (ins2 : List (κ × ν)) (k : κ) (v : ν) (hk : k ∉ ins2.map Prod.fst)
    (ins1 : List (κ × ν)) (m : List (κ × ν)) :
    alLookup (applyAll (ins1 ++ (k, v) :: ins2) m) k = some v := by
  rw [applyAll_append]
  show alLookup (applyAll ins2 (alInsert k v (applyAll ins1 m))) k = some v
  rw [alLookup_applyAll_not_mem ins2 _ k hk]
  exact alLookup_alInsert_self _ k v

/-- With duplicate-free keys, applying all insertions makes every inserted
pair retrievable. -/
theorem alLookup_applyAll_of_nodup {κ ν : Type} [DecidableEq κ]
    {ins : List (κ × ν)} (hnd : (ins.map Prod.fst).Nodup) {k : κ} {v : ν}
    (hm : (k, v) ∈ ins) (m : List (κ × ν)) :
    alLookup (applyAll ins m) k = some v := by
  obtain ⟨s, t, rfl⟩ := List.append_of_mem hm
  have hk : k ∉ t.map Prod.fst := by
    rw [List.map_append, List.map_cons] at hnd
    exact (List.nodup_cons.mp (List.Nodup.of_append_right hnd)).1
  exact alLookup_applyAll_last t k v hk s m

/-- Folding ordered upserts of a key-sorted list onto a map whose keys all
sort before it appends the list. -/
theorem foldl_omUpsert_append {α β : Type} [DecidableEq α]
    (lt : α → α → Bool)
    (hasym : ∀ x y, lt x y = true → lt y x = false ∧ ¬(y = x)) :
    ∀ (l acc : List (α × β)),
    ((acc.map Prod.fst ++ l.map Prod.fst).Pairwise
      (fun x y => lt x y = true)) →
    l.foldl (fun fl e => omUpsert lt e.1 e.2 fl) acc = acc ++ l
  | [], acc, _ => by simp
  | e :: l, acc, hsort => by
    have hstep : omUpsert lt e.1 e.2 acc = acc ++ [e] := by
      have hacc : ∀ e' ∈ acc, lt e.1 e'.1 = false ∧ ¬(e.1 = e'.1) := by
        intro e' he'
        have hlt : lt e'.1 e.1 = true := by
          have h1 := (List.pairwise_append.mp hsort).2.2
          exact h1 e'.1 (List.mem_map_of_mem Prod.fst he')
            e.1 (by rw [List.map_cons]; exact List.mem_cons_self _ _)
        exact hasym e'.1 e.1 hlt
      rw [omUpsert_all_gt lt e.1 e.2 acc hacc]
    rw [List.foldl_cons, hstep]
    have hsort' : ((acc ++ [e]).map Prod.fst ++ l.map Prod.fst).Pairwise
        (fun x y => lt x y = true) := by
      rw [List.map_append, List.append_assoc]
      exact hsort
    rw [foldl_omUpsert_append lt hasym l (acc ++ [e]) hsort']
    simp

/-- The `(path, index) ↦ block_id` insertions `ReadMetadata` replays for one
file. -/
def registerEntries (p : Path) (fm : FileMetadata) :
    List ((Path × Int) × Int) :=
  fm.blocks.map fun b => ((p, b.2.block_index), b.2.block_id)

/-- The `block_id ↦ (path, index)` insertions `ReadMetadata` replays for one
file. -/
def reverseEntries (p : Path) (fm : FileMetadata) :
    List (Int × (Path × Int)) :=
  fm.blocks.map fun b => (b.2.block_id, (p, b.2.block_index))

/-- One iteration of the per-file loop of `ReadMetadata`, as a state step. -/
def readFilesStep (m : MetadataManager) (e : Path × FileMetadata) :
    MetadataManager :=
  { m with
    files_metadata := omUpsert pathLt e.1 e.2 m.files_metadata
    block_mapping := e.2.blocks.foldl
      (fun mp b => alInsert (e.1, b.2.block_index) b.2.block_id mp)
      m.block_mapping
    reverse_block_mapping := e.2.blocks.foldl
      (fun mp b => alInsert b.2.block_id (e.1, b.2.block_index) mp)
      m.reverse_block_mapping }

theorem foldl_readFilesStep_files :
    ∀ (l : List (Path × FileMetadata)) (m : MetadataManager),
    (l.foldl readFilesStep m).files_metadata =
      l.foldl (fun fl e => omUpsert pathLt e.1 e.2 fl) m.files_metadata
  | [], _ => rfl
  | e :: l, m => by
    rw [List.foldl_cons, List.foldl_cons, foldl_readFilesStep_files l _]
    rfl

theorem foldl_readFilesStep_lru :
    ∀ (l : List (Path × FileMetadata)) (m : MetadataManager),
    (l.foldl readFilesStep m).lru_list = m.lru_list ∧
    (l.foldl readFilesStep m).lru_map = m.lru_map ∧
    (l.foldl readFilesStep m).max_cache_size = m.max_cache_size
  | [], _ => ⟨rfl, rfl, rfl⟩
  | e :: l, m => by
    rw [List.foldl_cons]
    exact foldl_readFilesStep_lru l _

theorem foldl_readFilesStep_bmap :
    ∀ (l : List (Path × FileMetadata)) (m : MetadataManager),
    (l.foldl readFilesStep m).block_mapping =
      applyAll (l.flatMap fun e => registerEntries e.1 e.2) m.block_mapping
  | [], _ => rfl
  | e :: l, m => by
    rw [List.foldl_cons, foldl_readFilesStep_bmap l _]
    have hb : ((e :: l).flatMap fun e => registerEntries e.1 e.2) =
        registerEntries e.1 e.2 ++
          (l.flatMap fun e => registerEntries e.1 e.2) := rfl
    rw [hb, applyAll_append]
    have h1 : (readFilesStep m e).block_mapping =
        applyAll (registerEntries e.1 e.2) m.block_mapping := by
      show e.2.blocks.foldl
          (fun mp b => alInsert (e.1, b.2.block_index) b.2.block_id mp)
          m.block_mapping = _
      rw [applyAll, registerEntries, List.foldl_map]
    rw [h1]

theorem foldl_readFilesStep_rmap :
    ∀ (l : List (Path × FileMetadata)) (m : MetadataManager),
    (l.foldl readFilesStep m).reverse_block_mapping =
      applyAll (l.flatMap fun e => reverseEntries e.1 e.2)
        m.reverse_block_mapping
  | [], _ => rfl
  | e :: l, m => by
    rw [List.foldl_cons, foldl_readFilesStep_rmap l _]
    have hb : ((e :: l).flatMap fun e => reverseEntries e.1 e.2) =
        reverseEntries e.1 e.2 ++
          (l.flatMap fun e => reverseEntries e.1 e.2) := rfl
    rw [hb, applyAll_append]
    have h1 : (readFilesStep m e).reverse_block_mapping =
        applyAll (reverseEntries e.1 e.2) m.reverse_block_mapping := by
      show e.2.blocks.foldl
          (fun mp b => alInsert b.2.block_id (e.1, b.2.block_index) mp)
          m.reverse_block_mapping = _
      rw [applyAll, reverseEntries, List.foldl_map]
    rw [h1]

theorem rdI64List_append :
    ∀ (ids : List Int) (rest : List Nat),
    (∀ i ∈ ids, -(2 ^ 63) ≤ i ∧ i < 2 ^ 63) →
    BlockManager.rdI64List ids.length (concatAll (ids.map i64LE) ++ rest) =
      some (ids, rest)
  | [], rest, _ => by simp [BlockManager.rdI64List, concatAll]
  | i :: ids, rest, h => by
    obtain ⟨h1, h2⟩ := h i (List.mem_cons_self i ids)
    have hstream : concatAll ((i :: ids).map i64LE) ++ rest =
        i64LE i ++ (concatAll (ids.map i64LE) ++ rest) := by
      simp [concatAll, List.append_assoc]
    rw [List.length_cons, BlockManager.rdI64List, hstream,
      rdI64_append h1 h2]
    simp only [Option.some_bind]
    rw [rdI64List_append ids rest
      (fun i' hi' => h i' (List.mem_cons_of_mem i hi'))]
    rfl

/-- The LRU rebuild loop of `ReadMetadata` restores a duplicate-free id list
into both LRU structures in stream order. -/
theorem lruRebuild_spec :
    ∀ (ids : List Int) (m : MetadataManager),
    m.lru_map = m.lru_list → (m.lru_list ++ ids).Nodup →
    (ids.foldl (fun m bid =>
      { m with
        lru_list := m.lru_list ++ [bid]
        lru_map :=
          if m.lru_map.contains bid then m.lru_map
          else m.lru_map ++ [bid] }) m) =
      { m with
        lru_list := m.lru_list ++ ids
        lru_map := m.lru_list ++ ids }
  | [], m, hmap, _ => by
    cases m
    simp_all
  | bid :: ids, m, hmap, hnd => by
    have hbid : bid ∉ m.lru_list := by
      have h1 := (List.nodup_append.mp hnd).2.2
      intro hc
      exact h1 hc (List.mem_cons_self bid ids)
    have hcont : ¬(m.lru_map.contains bid = true) := by
      rw [intList_contains_iff, hmap]
      exact hbid
    rw [List.foldl_cons, if_neg hcont, hmap]
    have hnd' : ((m.lru_list ++ [bid]) ++ ids).Nodup := by
      rw [List.append_assoc]
      exact (by simpa using hnd)
    rw [lruRebuild_spec ids _ rfl hnd']
    simp

/-- The serialized bytes of the per-file section of `WriteMetadata`. -/
def filesBytes (l : List (Path × FileMetadata)) : List Nat :=
  concatAll (l.map fun e =>
    u32LE (e.1.length % 2 ^ 32) ++ e.1.take (e.1.length % 2 ^ 32) ++
      e.2.writeBytes)

/-- The per-file loop of `ReadMetadata` at version 3 parses the files
section back, replaying the per-file registrations onto the accumulator. -/
theorem readFilesLoop_append :
    ∀ (l : List (Path × FileMetadata)) (acc : MetadataManager)
      (rest : List Nat),
    (∀ e ∈ l, e.1.length < 2 ^ 32 ∧ e.2.WF) →
    MetadataManager.readFilesLoop 3 l.length (filesBytes l ++ rest) acc =
      some (l.foldl readFilesStep acc, rest)
  | [], acc, rest, _ => by
    simp [MetadataManager.readFilesLoop, filesBytes, concatAll]
  | e :: l, acc, rest, h => by
    obtain ⟨hplen, hwf⟩ := h e (List.mem_cons_self e l)
    obtain ⟨hok, hsort, hfs, hnb, hd1, hd2, hl1, hl2⟩ := hwf
    have hmod : e.1.length % 2 ^ 32 = e.1.length := Nat.mod_eq_of_lt hplen
    have hcc : ∀ (x : List Nat) (xs : List (List Nat)),
        concatAll (x :: xs) = x ++ concatAll xs := fun _ _ => rfl
    have hstream : filesBytes (e :: l) ++ rest =
        u32LE e.1.length ++ (e.1 ++ (e.2.writeBytes ++
          (filesBytes l ++ rest))) := by
      rw [filesBytes, List.map_cons, hcc, hmod, List.take_length, filesBytes]
      simp [List.append_assoc]
    rw [List.length_cons, MetadataManager.readFilesLoop, hstream,
      rdU32_append_of_lt hplen]
    simp only [Option.some_bind]
    rw [rdBytes_append]
    simp only [Option.some_bind]
    have hv3 : FileMetadata.readBytes 3
        (e.2.writeBytes ++ (filesBytes l ++ rest)) =
        some (e.2, filesBytes l ++ rest) :=
      readV3_writeBytes e.2 _ hok hsort hfs hnb hd1 hd2 hl1 hl2
    rw [hv3]
    simp only [Option.some_bind]
    show MetadataManager.readFilesLoop 3 l.length (filesBytes l ++ rest)
        (readFilesStep acc e) = some ((e :: l).foldl readFilesStep acc, rest)
    rw [List.foldl_cons]
    exact readFilesLoop_append l (readFilesStep acc e) rest
      (fun e' he' => h e' (List.mem_cons_of_mem e he'))

theorem writeMetadata_eq (mm : MetadataManager) :
    mm.writeMetadata =
      u64LE mm.files_metadata.length ++
        (filesBytes mm.files_metadata ++
          (u64LE mm.lru_list.length ++
            concatAll (mm.lru_list.map i64LE))) := by
  rw [MetadataManager.writeMetadata, filesBytes]
  simp [List.append_assoc]

/-- Well-formedness of a `MetadataManager` state as the C++ in-memory state
guarantees it: a path-sorted files map with in-range well-formed per-file
metadata, agreeing LRU structures with duplicate-free in-range ids, globally
distinct block ids and per-file distinct block indexes. -/
def MetadataManager.WFserial (mm : MetadataManager) : Prop :=
  ((mm.files_metadata.map Prod.fst).Pairwise
    (fun a b => pathLt a b = true)) ∧
  (∀ e ∈ mm.files_metadata, e.1.length < 2 ^ 32 ∧ e.2.WF) ∧
  mm.files_metadata.length < 2 ^ 64 ∧
  mm.lru_map = mm.lru_list ∧ mm.lru_list.Nodup ∧
  (∀ bid ∈ mm.lru_list, -(2 ^ 63) ≤ bid ∧ bid < 2 ^ 63) ∧
  mm.lru_list.length < 2 ^ 64 ∧
  ((mm.files_metadata.flatMap fun e =>
      e.2.blocks.map fun b => b.2.block_id).Nodup) ∧
  (∀ e ∈ mm.files_metadata,
    (e.2.blocks.map fun b => b.2.block_index).Nodup)

instance (mm : MetadataManager) : Decidable mm.WFserial := by
  rw [MetadataManager.WFserial]
  infer_instance

/-- Claim C5: `WriteMetadata` followed by `ReadMetadata` at the current (v3)
format reconstructs the manager state: the same `files_metadata` map, the
LRU ids in the same front-to-back order in both LRU structures, the
unserialized `max_cache_size` retained, and the two direction maps rebuilt
from `files_metadata` as mutual inverses registering exactly the files'
blocks. -/
theorem C5_metadata_roundtrip (mm : MetadataManager) (h : mm.WFserial) :
    ∃ mm', mm.readMetadata 3 mm.writeMetadata = some mm' ∧
      mm'.files_metadata = mm.files_metadata ∧
      mm'.lru_list = mm.lru_list ∧ mm'.lru_map = mm.lru_map ∧
      mm'.max_cache_size = mm.max_cache_size ∧
      (∀ p fm, alLookup mm'.files_metadata p = some fm →
        ∀ b ∈ fm.blocks,
          alLookup mm'.block_mapping (p, b.2.block_index) =
            some b.2.block_id ∧
          alLookup mm'.reverse_block_mapping b.2.block_id =
            some (p, b.2.block_index)) := by
  obtain ⟨hsortP, hfilesWF, hnf, hmapEq, hlnd, hlrange, hnl, hids, hidx⟩ := h
  have hfiles : (mm.files_metadata.foldl readFilesStep
      { mm with
        files_metadata := []
        block_mapping := []
        reverse_block_mapping := [] }).files_metadata =
      mm.files_metadata := by
    rw [foldl_readFilesStep_files]
    have h2 := foldl_omUpsert_append pathLt pathLt_asymm
      mm.files_metadata [] (by simpa using hsortP)
    calc mm.files_metadata.foldl (fun fl e => omUpsert pathLt e.1 e.2 fl)
          ({ mm with
             files_metadata := []
             block_mapping := []
             reverse_block_mapping := [] } :
            MetadataManager).files_metadata
        = [] ++ mm.files_metadata := h2
      _ = mm.files_metadata := by simp
  rw [MetadataManager.readMetadata, writeMetadata_eq,
    rdU64_append_of_lt hnf]
  simp only [Option.some_bind]
  rw [readFilesLoop_append mm.files_metadata _ _ hfilesWF]
  simp only [Option.some_bind]
  rw [rdU64_append_of_lt hnl]
  simp only [Option.some_bind]
  have hlru := rdI64List_append mm.lru_list [] hlrange
  rw [List.append_nil] at hlru
  rw [hlru]
  simp only [Option.map_some']
  rw [lruRebuild_spec mm.lru_list _ rfl (by simpa using hlnd)]
  refine ⟨_, rfl, hfiles, by simp, ?_, ?_, ?_⟩
  · rw [hmapEq]
    simp
  · exact (foldl_readFilesStep_lru mm.files_metadata _).2.2
  · intro p fm hfm b hb
    have hmem : (p, fm) ∈ mm.files_metadata := by
      rw [hfiles] at hfm
      exact mem_of_alLookup_eq_some hfm
    constructor
    · rw [foldl_readFilesStep_bmap]
      have hre : ∀ e : Path × FileMetadata,
          (registerEntries e.1 e.2).map Prod.fst =
            (e.2.blocks.map fun b => b.2.block_index).map
              (fun i => (e.1, i)) := by
        intro e
        rw [registerEntries, List.map_map, List.map_map]
        rfl
      have hkeys : ((mm.files_metadata.flatMap fun e =>
          registerEntries e.1 e.2).map Prod.fst).Nodup := by
        rw [List.map_flatMap]
        refine List.nodup_flatMap.mpr ⟨?_, ?_⟩
        · intro e he
          rw [hre e]
          refine List.Nodup.map ?_ (hidx e he)
          intro i1 i2 hi
          exact ((Prod.mk.injEq _ _ _ _).mp hi).2
        · refine List.Pairwise.imp ?_ (List.pairwise_map.mp hsortP)
          intro e1 e2 hp x hx1 hx2
          have hx1' : x ∈ (registerEntries e1.1 e1.2).map Prod.fst := hx1
          have hx2' : x ∈ (registerEntries e2.1 e2.2).map Prod.fst := hx2
          rw [hre e1] at hx1'
          rw [hre e2] at hx2'
          obtain ⟨i1, _, rfl⟩ := List.mem_map.mp hx1'
          obtain ⟨i2, _, hx⟩ := List.mem_map.mp hx2'
          have hpp : e2.1 = e1.1 := by
            have h4 := congrArg Prod.fst hx
            simpa using h4
          exact (pathLt_asymm e1.1 e2.1 hp).2 hpp
      exact alLookup_applyAll_of_nodup hkeys
        (List.mem_flatMap_of_mem hmem (List.mem_map_of_mem _ hb)) _
    · rw [foldl_readFilesStep_rmap]
      have hre : ∀ e : Path × FileMetadata,
          (reverseEntries e.1 e.2).map Prod.fst =
            e.2.blocks.map fun b => b.2.block_id := by
        intro e
        rw [reverseEntries, List.map_map]
        rfl
      have hkeys : ((mm.files_metadata.flatMap fun e =>
          reverseEntries e.1 e.2).map Prod.fst).Nodup := by
        rw [List.map_flatMap]
        have h3 : (mm.files_metadata.flatMap fun e =>
            (reverseEntries e.1 e.2).map Prod.fst) =
            mm.files_metadata.flatMap fun e =>
              e.2.blocks.map fun b => b.2.block_id := by
          congr 1
          funext e
          exact hre e
        rw [h3]
        exact hids
      exact alLookup_applyAll_of_nodup hkeys
        (List.mem_flatMap_of_mem hmem (List.mem_map_of_mem _ hb)) _

/-- A concrete manager for the C5 witness: one file with one cached
block. -/
def c5fm : FileMetadata :=
  { file_size := 4
    blocks := [(5, ⟨0, 5, 7⟩)]
    last_modified_deprecated := 3
    last_modified := 99 }

/-- The C5 witness manager. -/
def c5mm : MetadataManager :=
  { block_mapping := [(([102], 0), 5)]
    reverse_block_mapping := [(5, ([102], 0))]
    files_metadata := [([102], c5fm)]
    lru_list := [5]
    lru_map := [5]
    max_cache_size := 10 }

/-- The manager read back from the C5 witness manager's serialized form. -/
def c5out : MetadataManager :=
  (c5mm.readMetadata 3 c5mm.writeMetadata).getD c5mm

/-- Witness for C5 at a concrete one-file manager. -/
theorem C5_metadata_roundtrip_witness :
    c5mm.WFserial ∧
      c5mm.readMetadata 3 c5mm.writeMetadata = some c5out ∧
      c5out.files_metadata = c5mm.files_metadata ∧
      c5out.lru_list = [5] ∧ c5out.lru_map = [5] ∧
      c5out.max_cache_size = 10 ∧
      alLookup c5out.block_mapping ([102], 0) = some 5 ∧
      alLookup c5out.reverse_block_mapping 5 = some ([102], 0) := by
  obtain ⟨mm', hrun, hfi, hll, hlm, hmx, hcor⟩ :=
    C5_metadata_roundtrip c5mm (by decide)
  have hout : mm' = c5out := by
    have h0 : c5mm.readMetadata 3 c5mm.writeMetadata = some c5out := rfl
    rw [h0] at hrun
    exact (Option.some_inj.mp hrun).symm
  subst hout
  have hb := hcor [102] c5fm (by rw [hfi]; rfl) (5, ⟨0, 5, 7⟩) (by decide)
  exact ⟨by decide, hrun, hfi, hll, hlm, hmx, hb.1, hb.2⟩

end QuackStore
